import Mathlib

/-!
Shallow embedding of the `frappe_whatsapp` repository's pure logic and of its
request/validation control flow, together with proofs of the specification
claims.

Python strings are modelled as `List Char`; Python `None`-or-string values as
`Option (List Char)` or as `List Char` with `[]` for falsy values where the
code only distinguishes truthiness; fallible statements as `Except` values;
dict-shaped webhook payloads as the inductive `FormVal`.  Every definition is
translated from the repository source (file and function named in each doc
comment).  All recursion is structural or fuel-based so that every definition
evaluates inside the kernel.
-/

/-! ### Python string primitives -/

/-- The ASCII whitespace set stripped by Python `str.strip()` and matched by
`\s` in `re`: space, tab, LF, VT, FF, CR. -/
def isPyWs (c : Char) : Bool :=
  c = ' ' || c = '\t' || c = '\n' || c = Char.ofNat 11 || c = Char.ofNat 12 || c = '\r'

/-- Drop trailing characters satisfying `p`. -/
def dropTrailing (p : Char → Bool) (l : List Char) : List Char :=
  (l.reverse.dropWhile p).reverse

/-- Python `str.strip()` (no argument): remove leading and trailing whitespace. -/
def pyStrip (l : List Char) : List Char :=
  dropTrailing isPyWs (l.dropWhile isPyWs)

/-- Python `str.strip(c)` for a single stripped character `c`. -/
def pyStripChar (c : Char) (l : List Char) : List Char :=
  dropTrailing (· = c) (l.dropWhile (· = c))

/-- Python `str.split(sep)` for a one-character separator: keeps empty pieces,
`[] ↦ [[]]` (Python `"".split(",") == [""]`). -/
def pySplitChar (sep : Char) : List Char → List (List Char)
  | [] => [[]]
  | c :: rest =>
    match pySplitChar sep rest with
    | [] => [[]]
    | h :: t => if c = sep then [] :: h :: t else (c :: h) :: t

/-- Numeric value of a decimal digit string, as computed by Python `int()`
(leading zeros allowed). -/
def natOfDigits (ds : List Char) : Nat :=
  ds.foldl (fun n c => n * 10 + (c.toNat - '0'.toNat)) 0

/-! ### `sanitize_whatsapp_param`
(`frappe_whatsapp/doctype/whatsapp_notification/whatsapp_notification.py`,
lines 20-39) -/

/-- `text.replace('\n', ' ').replace('\r', ' ').replace('\t', ' ')`. -/
def replaceWsWithSpace (l : List Char) : List Char :=
  l.map (fun c => if c = '\n' || c = '\r' || c = '\t' then ' ' else c)

/-- Replacement text produced for one maximal run of `n` spaces by
`re.sub(r' {5,}', '    ', text)`: runs of five or more collapse to four. -/
def collapseRun (n : Nat) : List Char :=
  List.replicate (if 5 ≤ n then 4 else n) ' '

/-- Scanner for `re.sub(r' {5,}', '    ', text)`; `n` counts the spaces of the
run currently being read. -/
def collapseSpacesAux : List Char → Nat → List Char
  | [], n => collapseRun n
  | c :: rest, n =>
    if c = ' ' then collapseSpacesAux rest (n + 1)
    else collapseRun n ++ c :: collapseSpacesAux rest 0

/-- `re.sub(r' {5,}', '    ', text)`. -/
def collapseSpaces (l : List Char) : List Char :=
  collapseSpacesAux l 0

/-- `sanitize_whatsapp_param(value)`.  `none` stands for Python `None`; for any
other value the argument is `some` of `str(value)` (the code's
`value in (None, "")` test also sends the empty string to `"-"`). -/
def sanitize_whatsapp_param : Option (List Char) → List Char
  | none => ['-']
  | some s =>
    if s = [] then ['-']
    else
      let text := pyStrip (collapseSpaces (replaceWsWithSpace s))
      if text = [] then ['-'] else text

/-! ### `sanitize_template_name`
(`frappe_whatsapp/doctype/whatsapp_templates/whatsapp_templates.py`,
lines 143-163) -/

/-- Characters matched by `[\s\-\.]` in `re.sub(r'[\s\-\.]+', '_', ...)`. -/
def isSepChar (c : Char) : Bool :=
  isPyWs c || c = '-' || c = '.'

/-- Characters kept by the template-name sanitizer: `[a-z0-9_]`. -/
def isTemplateChar (c : Char) : Bool :=
  ('a' ≤ c && c ≤ 'z') || c.isDigit || c = '_'

/-- Lowercase ASCII letter test (`[a-z]`). -/
def isLowerAlpha (c : Char) : Bool :=
  'a' ≤ c && c ≤ 'z'

/-- `[a-z0-9]` test, used by the `'template_' + re.sub(r'[^a-z0-9]', '', ...)`
fallback. -/
def isLowerDigit (c : Char) : Bool :=
  ('a' ≤ c && c ≤ 'z') || c.isDigit

/-- Scanner for `re.sub` with a pattern of the form `X+` and a one-character
replacement `'_'`: each maximal run of characters satisfying `p` becomes a
single underscore.  The flag records whether we are inside a run. -/
def subRunsAux (p : Char → Bool) : List Char → Bool → List Char
  | [], _ => []
  | c :: rest, inRun =>
    if p c then
      if inRun then subRunsAux p rest true else '_' :: subRunsAux p rest true
    else c :: subRunsAux p rest false

/-- `re.sub(r'X+', '_', l)` where `X` is the class decided by `p`. -/
def subRuns (p : Char → Bool) (l : List Char) : List Char :=
  subRunsAux p l false

/-- The `if sanitized and sanitized[0].isdigit(): sanitized = '_' + sanitized`
step of `sanitize_template_name`. -/
def prependUnderscoreIfDigit : List Char → List Char
  | [] => []
  | c :: rest => if c.isDigit then '_' :: c :: rest else c :: rest

/-- `WhatsAppTemplates.sanitize_template_name(name)`.  Python's Unicode
`str.lower()` is modelled by the ASCII `Char.toLower`; non-ASCII letters are
removed by the `[^a-z0-9_]` filter in either case. -/
def sanitize_template_name (name : List Char) : List Char :=
  if name = [] then []
  else
    let s1 := name.map Char.toLower
    let s2 := subRuns isSepChar s1
    let s3 := s2.filter isTemplateChar
    let s4 := subRuns (· = '_') s3
    let s5 := pyStripChar '_' s4
    let s6 := prependUnderscoreIfDigit s5
    if s6 = [] then
      ('t' :: 'e' :: 'm' :: 'p' :: 'l' :: 'a' :: 't' :: 'e' :: '_' :: []) ++
        ((name.map Char.toLower).filter isLowerDigit).take 20
    else s6

/-- The provider's template-name shape from the spec:
`^[a-z][a-z0-9_]*$` (also the regex checked in `WhatsAppTemplates.validate`). -/
def matchesProviderName : List Char → Bool
  | [] => false
  | c :: rest => isLowerAlpha c && rest.all isTemplateChar

/-! ### `get_parameter_count`
(`frappe_whatsapp/doctype/whatsapp_templates/whatsapp_templates.py`,
lines 165-174) -/

/-- Fueled scanner for `re.findall(r'\{\{(\d+)\}\}', text)`: left-to-right,
non-overlapping; on a failed match the scan advances one character.  The fuel
is an upper bound on the remaining length (`scanPlaceholders` passes exactly
the length), so the fuel never runs out. -/
def scanPHF : Nat → List Char → List Nat
  | 0, _ => []
  | _ + 1, [] => []
  | _ + 1, [_] => []
  | fuel + 1, c1 :: c2 :: rest =>
    if c1 = '{' ∧ c2 = '{' ∧ rest.takeWhile Char.isDigit ≠ []
        ∧ (rest.dropWhile Char.isDigit).take 2 = ['}', '}'] then
      natOfDigits (rest.takeWhile Char.isDigit) ::
        scanPHF fuel ((rest.dropWhile Char.isDigit).drop 2)
    else scanPHF fuel (c2 :: rest)

/-- `re.findall(r'\{\{(\d+)\}\}', text)` mapped through `int`. -/
def scanPlaceholders (l : List Char) : List Nat :=
  scanPHF l.length l

/-- `max` of a list of naturals with default `0` (`max(...)` over the findall
result, which is `0` only when every entry is `0`). -/
def maxList (l : List Nat) : Nat :=
  l.foldr max 0

/-- `WhatsAppTemplates.get_parameter_count()`: `none` stands for
`self.template` being `None`; `if not self.template` also catches `""`. -/
def get_parameter_count : Option (List Char) → Nat
  | none => 0
  | some l =>
    if l = [] then 0
    else
      match scanPlaceholders l with
      | [] => 0
      | m :: ms => maxList (m :: ms)

/-- Specification-side reading of "the numeral `n` appears in a `{{n}}`
placeholder": some digit string with value `n` occurs between literal double
braces somewhere in the text. -/
def placeholderAt (t : List Char) (n : Nat) : Prop :=
  ∃ ds : List Char, ds ≠ [] ∧ (∀ c ∈ ds, c.isDigit) ∧ natOfDigits ds = n ∧
    ('{' :: '{' :: (ds ++ '}' :: '}' :: [])) <:+: t

/-! ### `_parse_sample_values`
(`frappe_whatsapp/doctype/whatsapp_templates/whatsapp_templates.py`,
lines 176-213).  The code calls `json.loads`; the model below implements the
fragment of `json.loads` needed for the claims: JSON documents that are arrays
of JSON strings (whitespace tolerated, the standard string escapes).  Inputs
outside this fragment are only exercised by theorems whose hypotheses keep the
code out of the JSON branch. -/

/-- JSON whitespace (`json.loads` token separators). -/
def isJsonWs (c : Char) : Bool :=
  c = ' ' || c = '\t' || c = '\n' || c = '\r'

/-- Value of one hex digit, or `none`. -/
def hexVal (c : Char) : Option Nat :=
  if '0' ≤ c ∧ c ≤ '9' then some (c.toNat - '0'.toNat)
  else if 'a' ≤ c ∧ c ≤ 'f' then some (c.toNat - 'a'.toNat + 10)
  else if 'A' ≤ c ∧ c ≤ 'F' then some (c.toNat - 'A'.toNat + 10)
  else none

/-- Lowercase hex digit for a value `< 16` (as produced by `json.dumps`). -/
def hexDigit (n : Nat) : Char :=
  if n < 10 then Char.ofNat ('0'.toNat + n) else Char.ofNat ('a'.toNat + (n - 10))

/-- The character denoted by a one-letter JSON escape (`\n`, `\t`, ...). -/
def jsonEscChar (e : Char) : Option Char :=
  if e = '"' then some '"'
  else if e = '\\' then some '\\'
  else if e = '/' then some '/'
  else if e = 'n' then some '\n'
  else if e = 't' then some '\t'
  else if e = 'r' then some '\r'
  else if e = 'b' then some (Char.ofNat 8)
  else if e = 'f' then some (Char.ofNat 12)
  else none

/-- Parse the body of a JSON string (the opening quote already consumed);
returns the decoded characters and the input after the closing quote. -/
def parseJStr : List Char → Option (List Char × List Char)
  | [] => none
  | c :: r =>
    if c = '"' then some ([], r)
    else if c = '\\' then
      match r with
      | [] => none
      | e :: r1 =>
        if e = 'u' then
          match r1 with
          | a :: b :: c2 :: d :: r2 =>
            match hexVal a, hexVal b, hexVal c2, hexVal d with
            | some ha, some hb, some hc, some hd =>
              let n := ((ha * 16 + hb) * 16 + hc) * 16 + hd
              if n < 0xd800 then
                match parseJStr r2 with
                | some (s, rest) => some (Char.ofNat n :: s, rest)
                | none => none
              else none
            | _, _, _, _ => none
          | _ => none
        else
          match jsonEscChar e with
          | some ec =>
            match parseJStr r1 with
            | some (s, rest) => some (ec :: s, rest)
            | none => none
          | none => none
    else
      match parseJStr r with
      | some (s, rest) => some (c :: s, rest)
      | none => none

/-- Fueled parser for the elements of a JSON string array, positioned at the
first element (after `[` and any whitespace, input known not to start with
`]`).  Returns the decoded strings and the input after the closing `]`. -/
def parseElemsF : Nat → List Char → Option (List (List Char) × List Char)
  | 0, _ => none
  | fuel + 1, l =>
    match l with
    | '"' :: r =>
      match parseJStr r with
      | some (s, r1) =>
        match r1.dropWhile isJsonWs with
        | ',' :: r2 =>
          match parseElemsF fuel (r2.dropWhile isJsonWs) with
          | some (ss, rest) => some (s :: ss, rest)
          | none => none
        | ']' :: r2 => some ([s], r2)
        | _ => none
      | none => none
    | _ => none

/-- `json.loads` restricted to arrays of JSON strings: parses `l` as a complete
JSON document `[ "s1", "s2", ... ]`; `none` on any other input (modelling a
`json.JSONDecodeError`, or a document outside the modelled fragment). -/
def pyJsonLoadsStrArr (l : List Char) : Option (List (List Char)) :=
  match l.dropWhile isJsonWs with
  | '[' :: r =>
    match r.dropWhile isJsonWs with
    | ']' :: rest => if rest.dropWhile isJsonWs = [] then some [] else none
    | r1 =>
      match parseElemsF r1.length r1 with
      | some (ss, rest) => if rest.dropWhile isJsonWs = [] then some ss else none
      | none => none
  | _ => none

/-- `WhatsAppTemplates._parse_sample_values(sample_values_str, expected_count)`.
`expected` is `none` for Python `None`. -/
def parse_sample_values (sample : List Char) (expected : Option Nat) :
    List (List Char) :=
  if sample = [] ∨ pyStrip sample = [] then []
  else
    let s := pyStrip sample
    let jsonRes : Option (List (List Char)) :=
      if s.head? = some '[' ∧ s.getLast? = some ']' then
        (pyJsonLoadsStrArr s).map (fun ss => (ss.map pyStrip).filter (· ≠ []))
      else none
    match jsonRes with
    | some res => res
    | none =>
      if '|' ∈ s then
        let pipeList := ((pySplitChar '|' s).map pyStrip).filter (· ≠ [])
        if expected = none ∨ expected = some pipeList.length then pipeList
        else ((pySplitChar ',' s).map pyStrip).filter (· ≠ [])
      else ((pySplitChar ',' s).map pyStrip).filter (· ≠ [])

/-- One character of the canonical JSON string encoding (the escapes emitted
by `json.dumps`, `ensure_ascii` aside: quote, backslash, and the control
characters; everything else is emitted raw). -/
def escChar (c : Char) : List Char :=
  if c = '"' then ['\\', '"']
  else if c = '\\' then ['\\', '\\']
  else if c = '\n' then ['\\', 'n']
  else if c = '\t' then ['\\', 't']
  else if c = '\r' then ['\\', 'r']
  else if c = Char.ofNat 8 then ['\\', 'b']
  else if c = Char.ofNat 12 then ['\\', 'f']
  else if c.toNat < 32 then
    ['\\', 'u', '0', '0', hexDigit (c.toNat / 16), hexDigit (c.toNat % 16)]
  else [c]

/-- JSON encoding of one string, with quotes. -/
def jsonEncodeStr (s : List Char) : List Char :=
  '"' :: ((s.map escChar).flatten ++ ['"'])

/-- Comma-separated JSON encodings of a list of strings. -/
def jsonEncodeElems : List (List Char) → List Char
  | [] => []
  | [s] => jsonEncodeStr s
  | s :: rest => jsonEncodeStr s ++ ',' :: jsonEncodeElems rest

/-- A JSON-array encoding of a list of strings (canonical form: no extra
whitespace). -/
def jsonEncodeArray (ss : List (List Char)) : List Char :=
  '[' :: (jsonEncodeElems ss ++ [']'])

/-! ### Webhook payloads (`frappe_whatsapp/utils/webhook.py`) -/

/-- Python exceptions that the webhook and notification code can raise. -/
inductive PyExc where
  | keyError
  | indexError
  | typeError
  | attributeError
  | doesNotExist
  | otherExc
  | frappeThrow (msg : String)
deriving DecidableEq

/-- JSON-like values as delivered in `frappe.local.form_dict`. -/
inductive FormVal where
  | vnull
  | vbool (b : Bool)
  | vnum (n : Int)
  | vstr (s : String)
  | vlist (l : List FormVal)
  | vdict (d : List (String × FormVal))

/-- First value bound to a key in a dict. -/
def dictFind (d : List (String × FormVal)) (k : String) : Option FormVal :=
  (d.find? (fun p => p.1 = k)).map (·.2)

/-- Python truthiness of a JSON value. -/
def truthyFV : FormVal → Bool
  | .vnull => false
  | .vbool b => b
  | .vnum n => n ≠ 0
  | .vstr s => s ≠ ""
  | .vlist l => !l.isEmpty
  | .vdict d => !d.isEmpty

/-- Python `obj[key]` with a string key: `KeyError` on a dict without the key,
`TypeError` on lists/strings ("indices must be integers"), `TypeError` on
scalars ("not subscriptable"). -/
def getStr : FormVal → String → Except PyExc FormVal
  | .vdict d, k =>
    match dictFind d k with
    | some v => .ok v
    | none => .error .keyError
  | .vlist _, _ => .error .typeError
  | .vstr _, _ => .error .typeError
  | _, _ => .error .typeError

/-- Python `obj[i]` for a natural index: `IndexError` past the end of a list or
string (string indexing yields a one-character string), `KeyError` on a dict
(our dict keys are strings, so an integer key is never present), `TypeError`
on scalars. -/
def getIdx : FormVal → Nat → Except PyExc FormVal
  | .vlist l, i =>
    match l.get? i with
    | some v => .ok v
    | none => .error .indexError
  | .vdict _, _ => .error .keyError
  | .vstr s, i =>
    match s.toList.get? i with
    | some c => .ok (.vstr (String.mk [c]))
    | none => .error .indexError
  | _, _ => .error .typeError

/-- Python `obj.get(key, default)`: `AttributeError` unless `obj` is a dict. -/
def dictGetD : FormVal → String → FormVal → Except PyExc FormVal
  | .vdict d, k, dflt => .ok ((dictFind d k).getD dflt)
  | _, _, _ => .error .attributeError

/-- Python `for x in obj`: lists yield elements, dicts yield their keys (as
strings), strings yield one-character strings, scalars raise `TypeError`. -/
def iterFV : FormVal → Except PyExc (List FormVal)
  | .vlist l => .ok l
  | .vdict d => .ok (d.map (fun p => .vstr p.1))
  | .vstr s => .ok (s.toList.map (fun c => .vstr (String.mk [c])))
  | _ => .error .typeError

/-- Python `needle in obj` for a string needle: key test on dicts, membership
on lists (equality with a string only holds for equal strings), substring test
on strings, `TypeError` on scalars. -/
def pyContains (obj : FormVal) (needle : String) : Except PyExc Bool :=
  match obj with
  | .vdict d => .ok ((dictFind d needle).isSome)
  | .vlist l =>
    .ok (l.any (fun v => match v with | .vstr t => t = needle | _ => false))
  | .vstr t => .ok (decide (needle.toList <:+: t.toList))
  | _ => .error .typeError

/-- Equality of a `FormVal` with a string literal (Python `==` against a
string is only true for an equal string). -/
def fvEqStr (v : FormVal) (s : String) : Bool :=
  match v with
  | .vstr t => t = s
  | _ => false

/-- Observable side effects of the webhook `post` handler. -/
inductive WEffect where
  | rawLog
  | msgCreated
  | fileCreated
  | msgSaved
  | errorLogged
  | infoLogged
  | debugLogged
  | tmplStatusHandled
  | msgStatusUpdated
deriving DecidableEq

/-- The two fields read from the media-metadata response
(`media_data.get("url")`, `media_data.get("mime_type")`). -/
structure MediaMeta where
  url : Option String
  mime : Option String

/-- External collaborators of the webhook `post` handler. -/
structure WebhookEnv where
  /-- `get_whatsapp_account(phone_id)`: the matching account name, if any. -/
  account : FormVal → Option String
  /-- First `requests.get` on the media id: `none` models a non-200 status. -/
  mediaMeta : FormVal → Option MediaMeta
  /-- Second `requests.get` on the media url: did it return 200? -/
  mediaDownload : String → Bool
  /-- `frappe.db.get_value("WhatsApp Message", {"message_id": id})`. -/
  msgLookup : FormVal → Option String

/-- Python `obj[k]` where the key is an arbitrary value: string keys go
through `getStr`; a non-string key is absent from our string-keyed dicts
(`KeyError`). -/
def getDyn (obj : FormVal) (k : FormVal) : Except PyExc FormVal :=
  match k with
  | .vstr s => getStr obj s
  | _ =>
    match obj with
    | .vdict _ => .error .keyError
    | _ => .error .typeError

/-- Python `obj.get(k)` with an arbitrary key and default `None`. -/
def dictGetDyn (obj : FormVal) (k : FormVal) : Except PyExc FormVal :=
  match k with
  | .vstr s => dictGetD obj s .vnull
  | _ =>
    match obj with
    | .vdict _ => .ok .vnull
    | _ => .error .attributeError

/-- Processing of one inbound message (`post`, lines 65-180): the per-type
key accesses in source order, ending in the record inserts of that branch. -/
def processMessage (env : WebhookEnv) (m : FormVal) :
    Except PyExc (List WEffect) := do
  let ty ← getStr m "type"
  let ctx ← dictGetD m "context" .vnull
  let isReply ←
    if truthyFV ctx then do
      let h ← pyContains ctx "forwarded"
      pure (!h)
    else pure false
  let _ ←
    if isReply then do
      let c ← getStr m "context"
      getStr c "id"
    else pure .vnull
  if fvEqStr ty "text" then do
    let _ ← getStr m "from"
    let t ← getStr m "text"
    let _ ← getStr t "body"
    let _ ← getStr m "id"
    pure [.msgCreated]
  else if fvEqStr ty "reaction" then do
    let _ ← getStr m "from"
    let r ← getStr m "reaction"
    let _ ← getStr r "emoji"
    let _ ← getStr r "message_id"
    let _ ← getStr m "id"
    pure [.msgCreated]
  else if fvEqStr ty "interactive" then do
    let _ ← getStr m "from"
    let i ← getStr m "interactive"
    let n ← getStr i "nfm_reply"
    let _ ← getStr n "response_json"
    let _ ← getStr m "id"
    pure [.msgCreated]
  else if fvEqStr ty "image" || fvEqStr ty "audio" || fvEqStr ty "video"
      || fvEqStr ty "document" then do
    let tyStr := match ty with | .vstr s => s | _ => ""
    let mv ← getStr m tyStr
    let mid ← getStr mv "id"
    match env.mediaMeta mid with
    | none => pure []
    | some meta =>
      match meta.mime with
      | none => .error .attributeError
      | some mime =>
        match (pySplitChar '/' mime.toList).get? 1 with
        | none => .error .indexError
        | some _ =>
          match meta.url with
          | none => .error .otherExc
          | some url =>
            if env.mediaDownload url then do
              let _ ← getStr m "from"
              let _ ← getStr m "id"
              let _ ← dictGetD mv "caption" .vnull
              pure [.msgCreated, .fileCreated, .msgSaved]
            else pure []
  else if fvEqStr ty "button" then do
    let _ ← getStr m "from"
    let b ← getStr m "button"
    let _ ← getStr b "text"
    let _ ← getStr m "id"
    pure [.msgCreated]
  else do
    let _ ← getStr m "from"
    let _ ← getStr m "id"
    let mv ← getDyn m ty
    let _ ← dictGetDyn mv ty
    pure [.msgCreated]

/-- Sequential processing of the message list; effects of completed messages
persist even when a later message raises. -/
def processMessages (env : WebhookEnv) :
    List FormVal → List WEffect × Option PyExc
  | [] => ([], none)
  | m :: rest =>
    match processMessage env m with
    | .error e => ([], some e)
    | .ok effs =>
      match processMessages env rest with
      | (effs2, r) => (effs ++ effs2, r)

/-- Innermost loop of the `sender_profile_name` generator (lines 50-58): the
first contact encountered yields `contact.get("profile", {}).get("name")`. -/
def fcnContacts : List FormVal → Except PyExc (Option FormVal)
  | [] => .ok none
  | c :: _ => do
    let pr ← dictGetD c "profile" (.vdict [])
    let nm ← dictGetD pr "name" .vnull
    pure (some nm)

/-- Middle loop of the `sender_profile_name` generator. -/
def fcnChanges : List FormVal → Except PyExc (Option FormVal)
  | [] => .ok none
  | ch :: rest => do
    let v ← dictGetD ch "value" (.vdict [])
    let cs ← dictGetD v "contacts" (.vlist [])
    let csl ← iterFV cs
    match ← fcnContacts csl with
    | some x => pure (some x)
    | none => fcnChanges rest

/-- Outer loop of the `sender_profile_name` generator. -/
def fcnEntries : List FormVal → Except PyExc (Option FormVal)
  | [] => .ok none
  | en :: rest => do
    let cs ← dictGetD en "changes" (.vlist [])
    let csl ← iterFV cs
    match ← fcnChanges csl with
    | some x => pure (some x)
    | none => fcnEntries rest

/-- `sender_profile_name = next((contact...name for entry ... ), None)`
evaluated lazily: iteration stops at the first yielded value, and any
ill-shaped element reached before that raises. -/
def firstContactName (data : FormVal) : Except PyExc (Option FormVal) := do
  let e ← dictGetD data "entry" (.vlist [])
  let el ← iterFV e
  fcnEntries el

/-- `update_message_status(data)` (webhook.py lines 301-312): raw key/index
accesses, no exception handling. -/
def update_message_status (env : WebhookEnv) (v : FormVal) :
    Except PyExc (List WEffect) := do
  let sts ← getStr v "statuses"
  let s0 ← getIdx sts 0
  let mid ← getStr s0 "id"
  let _ ← getStr s0 "status"
  let conv ← dictGetD s0 "conversation" (.vdict [])
  let _ ← dictGetD conv "id" .vnull
  match env.msgLookup mid with
  | none => .error .doesNotExist
  | some _ => pure [.msgStatusUpdated]

/-- `update_template_status(data)` (webhook.py lines 224-299): the entire body
sits inside `try/except Exception`, so the call never propagates an exception;
its database writes and logging are abstracted into one effect. -/
def update_template_status (_v : FormVal) : List WEffect :=
  [.tmplStatusHandled]

/-- `update_status(data)` (webhook.py lines 196-222). -/
def update_status (env : WebhookEnv) (ch : FormVal) :
    Except PyExc (List WEffect) := do
  let field ← dictGetD ch "field" .vnull
  if fvEqStr field "message_template_status_update" then do
    let v ← dictGetD ch "value" .vnull
    if truthyFV v then pure (.infoLogged :: .infoLogged :: update_template_status v)
    else pure [.infoLogged, .errorLogged]
  else if fvEqStr field "messages" then do
    let v ← dictGetD ch "value" .vnull
    if truthyFV v then do
      let effs ← update_message_status env v
      pure (.infoLogged :: effs)
    else pure [.infoLogged, .errorLogged]
  else pure [.infoLogged, .debugLogged]

/-- Membership in the `except (KeyError, IndexError, TypeError)` tuple of the
status-branch parse (webhook.py lines 186-189). -/
def isShapeExc : PyExc → Bool
  | .keyError => true
  | .indexError => true
  | .typeError => true
  | _ => false

/-- The webhook `post()` handler (webhook.py lines 34-194).  Returns the
effects performed and either a normal return or the uncaught exception. -/
def post (data : FormVal) (env : WebhookEnv) :
    List WEffect × Except PyExc Unit :=
  let logs0 : List WEffect := [.rawLog]
  let firstTry : Except PyExc (FormVal × FormVal) := do
    let e ← getStr data "entry"
    let e0 ← getIdx e 0
    let ch ← getStr e0 "changes"
    let ch0 ← getIdx ch 0
    let v ← getStr ch0 "value"
    let msgs ← dictGetD v "messages" (.vlist [])
    let pe ← dictGetD data "entry" (.vlist [.vdict []])
    let pe0 ← getIdx pe 0
    let pch ← dictGetD pe0 "changes" (.vlist [.vdict []])
    let pch0 ← getIdx pch 0
    let pv ← dictGetD pch0 "value" (.vdict [])
    let pmeta ← dictGetD pv "metadata" (.vdict [])
    let pid ← dictGetD pmeta "phone_number_id" .vnull
    pure (msgs, pid)
  let extracted : Except PyExc (FormVal × FormVal) :=
    match firstTry with
    | .ok mp => .ok mp
    | .error .keyError => do
      let e ← getStr data "entry"
      let ch ← getStr e "changes"
      let ch0 ← getIdx ch 0
      let v ← getStr ch0 "value"
      let msgs ← dictGetD v "messages" (.vlist [])
      pure (msgs, .vnull)
    | .error e => .error e
  match extracted with
  | .error e => (logs0, .error e)
  | .ok (messages, phoneId) =>
    match firstContactName data with
    | .error e => (logs0, .error e)
    | .ok _profile =>
      let acct : Option String :=
        if truthyFV phoneId then env.account phoneId else none
      match acct with
      | none => (logs0, .ok ())
      | some _a =>
        if truthyFV messages then
          match iterFV messages with
          | .error e => (logs0, .error e)
          | .ok ms =>
            match processMessages env ms with
            | (effs, none) => (logs0 ++ effs, .ok ())
            | (effs, some e) => (logs0 ++ effs, .error e)
        else
          let chTry1 : Except PyExc FormVal := do
            let e ← getStr data "entry"
            let e0 ← getIdx e 0
            let ch ← getStr e0 "changes"
            getIdx ch 0
          let chTry2 : Except PyExc FormVal := do
            let e2 ← getStr data "entry"
            let ch ← getStr e2 "changes"
            getIdx ch 0
          let chRes : Except PyExc (Option FormVal) :=
            match chTry1 with
            | .ok ch => .ok (some ch)
            | .error e =>
              if isShapeExc e then
                match chTry2 with
                | .ok ch => .ok (some ch)
                | .error e2 => if isShapeExc e2 then .ok none else .error e2
              else .error e
          match chRes with
          | .error e => (logs0, .error e)
          | .ok none => (logs0 ++ [.errorLogged], .ok ())
          | .ok (some ch) =>
            if truthyFV ch then
              match update_status env ch with
              | .ok effs => (logs0 ++ effs, .ok ())
              | .error e => (logs0, .error e)
            else (logs0, .ok ())

/-! ### Webhook `get()` (webhook.py lines 20-32) -/

/-- Database view used by `get()`: account name ↦ the account's
`webhook_verify_token` field (`none` when no such account row exists or the
field is SQL NULL; an empty string is a present-but-falsy value). -/
structure GetEnv where
  accountSecret : String → Option String

/-- The two `frappe.form_dict` fields read by `get()`. -/
structure GetForm where
  hubChallenge : Option String
  hubVerifyToken : Option String

/-- A `werkzeug` `Response(body, status)`. -/
structure GetResp where
  body : Option String
  status : Nat
deriving DecidableEq

/-- `get()`: looks up the account *named* by the supplied `hub.verify_token`,
throws when the stored secret is missing or falsy or differs from the token,
and otherwise echoes `hub.challenge` with status 200. -/
def webhook_get (env : GetEnv) (form : GetForm) : Except String GetResp :=
  let webhookVerifyToken : Option String := form.hubVerifyToken.bind env.accountSecret
  match webhookVerifyToken with
  | none => .error "No matching WhatsApp account"
  | some s =>
    if s = "" then .error "No matching WhatsApp account"
    else if form.hubVerifyToken ≠ some s then .error "Verify token does not match"
    else .ok ⟨form.hubChallenge, 200⟩

/-! ### `WhatsAppNotification.notify`
(`frappe_whatsapp/doctype/whatsapp_notification/whatsapp_notification.py`,
lines 404-494) -/

/-- Records created by `notify`: the "WhatsApp Message" log row saved inside
the `try` block and the "WhatsApp Notification Log" outcome row inserted in
the `finally` block (with its `meta_data`). -/
inductive NRec where
  | waMessage
  | notifLog (meta : FormVal)

/-- Is this record the outcome log row? -/
def isNotifLog : NRec → Bool
  | .notifLog _ => true
  | .waMessage => false

/-- Rendering of a raised exception by Python `str(e)`, as used for
`error_message`. -/
def pyExcStr : PyExc → String
  | .keyError => "KeyError"
  | .indexError => "IndexError"
  | .typeError => "TypeError"
  | .attributeError => "AttributeError"
  | .doesNotExist => "DoesNotExistError"
  | .otherExc => "Exception"
  | .frappeThrow m => m

/-- Outcome of the `make_post_request` call, together with the state of
`frappe.flags.integration_request` when the call raised: `none` = the flag is
falsy, `some (.ok j)` = `.json()` returns `j`, `some (.error ())` = `.json()`
itself raises. -/
inductive NotifyPostRes where
  | ok (resp : FormVal)
  | exc (e : String) (integ : Option (Except Unit FormVal))

/-- External collaborators of `notify`. -/
structure NotifyEnv where
  /-- The account resolved from `template_account` or the default outgoing
  account; `none` makes `notify` throw before the `try` block. -/
  resolvedAccount : Option String
  postRes : NotifyPostRes
  /-- Does `frappe.get_doc(new_doc).save(...)` raise (with which message)? -/
  saveFails : Option String
  /-- Does the `set_property_after_alert` update raise?  `none` also covers
  the branch not being taken. -/
  setValueFails : Option String

/-- `param["text"]` for each entry of the first component's parameter list. -/
def collectParamTexts : List FormVal → Except PyExc Unit
  | [] => .ok ()
  | p :: rest => do
    let _ ← getStr p "text"
    collectParamTexts rest

/-- How the `try` block of `notify` ends. -/
inductive TryOut where
  | success (resp : FormVal)
  | failed (e : String) (integ : Option (Except Unit FormVal))

/-- The `try` block of `notify` (lines 421-471): the HTTP POST, the parameter
extraction from `data`, the message-id read from the response, the message-log
save, and the optional property update, each able to raise into the `except`
arm.  Returns the records created so far and how the block ended;
`notifyTryAccess` is the sequence of dict/response reads of the block
(parameter extraction from `data`, then `response['messages'][0]['id']`). -/
def notifyTryAccess (data resp : FormVal) : Except PyExc Unit := do
  let tmpl ← getStr data "template"
  let comps ← getStr tmpl "components"
  let _ ←
    if truthyFV comps then do
      let c0 ← getIdx comps 0
      let ps ← getStr c0 "parameters"
      let pl ← iterFV ps
      collectParamTexts pl
    else pure ()
  let _ ← getStr data "template"
  let _ ← getStr data "to"
  let msgs ← getStr resp "messages"
  let m0 ← getIdx msgs 0
  let _ ← getStr m0 "id"
  pure ()

def notifyTry (data : FormVal) (env : NotifyEnv) : List NRec × TryOut :=
  match env.postRes with
  | .exc e integ => ([], .failed e integ)
  | .ok resp =>
    match notifyTryAccess data resp with
    | .error ex => ([], .failed (pyExcStr ex) (some (.ok resp)))
    | .ok () =>
      match env.saveFails with
      | some e => ([], .failed e (some (.ok resp)))
      | none =>
        match env.setValueFails with
        | some e => ([.waMessage], .failed e (some (.ok resp)))
        | none => ([.waMessage], .success resp)

/-- The `except` arm's `error_message` computation (lines 473-478): `str(e)`,
replaced by `response.get('Error', response.get("message"))` when the
integration-request flag holds a truthy JSON `error` object; an exception
raised while reading the body propagates (with `error_message` still
`str(e)` for the `finally` block). -/
def exceptErrorMessage (e : String)
    (integ : Option (Except Unit FormVal)) : Except PyExc FormVal :=
  match integ with
  | none => .ok (.vstr e)
  | some (.error ()) => .error .otherExc
  | some (.ok j) =>
    match dictGetD j "error" (.vdict []) with
    | .error ex => .error ex
    | .ok errv =>
      if truthyFV errv then
        match dictGetD errv "message" .vnull with
        | .error ex => .error ex
        | .ok dm =>
          match dictGetD errv "Error" dm with
          | .error ex => .error ex
          | .ok v => .ok v
      else .ok (.vstr e)

/-- `notify(data, ...)`: account resolution, then `try/except/finally` as in
the source.  In the `finally` block a successful send logs the provider
response JSON; a failed send logs `{"error": error_message}`; an exception
raised inside the `except` arm still runs `finally` (logging
`{"error": str(e)}`) and then propagates. -/
def notify (data : FormVal) (env : NotifyEnv) : List NRec × Except PyExc Unit :=
  match env.resolvedAccount with
  | none =>
    ([], .error (.frappeThrow "Please set a default outgoing WhatsApp Account"))
  | some _ =>
    match notifyTry data env with
    | (recs, .success resp) => (recs ++ [.notifLog resp], .ok ())
    | (recs, .failed e integ) =>
      match exceptErrorMessage e integ with
      | .ok em => (recs ++ [.notifLog (.vdict [("error", em)])], .ok ())
      | .error ex => (recs ++ [.notifLog (.vdict [("error", .vstr e)])], .error ex)

/-! ### `WhatsAppTemplates.validate`
(`frappe_whatsapp/doctype/whatsapp_templates/whatsapp_templates.py`,
lines 20-141).  Fields that Python reads only for truthiness or equality are
`List Char` with `[]` for every falsy value (`None` or `""`). -/

/-- The fields of a "WhatsApp Templates" document read by `validate`. -/
structure TmplDoc where
  is_new : Bool
  template_name : List Char
  actual_name : List Char
  language : List Char
  language_code : List Char
  /-- `self.has_value_changed("language")`. -/
  langChanged : Bool
  header_type : List Char
  header : List Char
  footer : List Char
  category : List Char
  template : List Char
  sample_values : List Char
  sample : List Char
  status : List Char
  id : List Char
  whatsapp_account : List Char

/-- The distinct `frappe.throw` sites of `validate` (and the uncaught media
upload failure). -/
inductive VErr where
  | noDefaultAccount
  | invalidTemplateName
  | bodyLimitExceeded
  | headerLimitExceeded
  | footerLimitExceeded
  | sampleValuesRequired
  | sampleValuesMismatch
  | mediaUploadFailed
deriving DecidableEq

/-- Remote calls and logging performed during `validate`. -/
inductive TEffect where
  | mediaUpload
  | remoteUpdate
  | updateErrorLogged
deriving DecidableEq

/-- External collaborators of `validate`. -/
structure TmplEnv where
  /-- `frappe.db.get_value("Language", self.language)`. -/
  langLookup : List Char → Option (List Char)
  /-- The default outgoing account consulted by `set_whatsapp_account`. -/
  defaultAccount : Option (List Char)
  /-- Do the `get_session_id`/`get_media_id` HTTP calls succeed? -/
  mediaOk : Bool
  /-- Does the `update_template` remote call succeed? -/
  updateOk : Bool

/-- One statement block of `validate`, as a state transformer that can throw
and record effects. -/
def TStep : Type :=
  TmplDoc → List TEffect × Except VErr TmplDoc

/-- `set_whatsapp_account()` (lines 255-262). -/
def step_set_account (env : TmplEnv) : TStep := fun d =>
  if d.whatsapp_account = [] then
    match env.defaultAccount with
    | none => ([], .error .noDefaultAccount)
    | some a => ([], .ok { d with whatsapp_account := a })
  else ([], .ok d)

/-- Language-code defaulting (lines 22-24): `get_value(...) or "en"`, then
`.replace("-", "_")`. -/
def step_language (env : TmplEnv) : TStep := fun d =>
  if d.language_code = [] ∨ d.langChanged then
    let lc :=
      match env.langLookup d.language with
      | some v => if v = [] then ['e', 'n'] else v
      | none => ['e', 'n']
    ([], .ok { d with language_code := lc.map (fun c => if c = '-' then '_' else c) })
  else ([], .ok d)

/-- Template-name sanitation and the `^[a-z][a-z0-9_]*$` check
(lines 26-40). -/
def step_name : TStep := fun d =>
  if d.template_name ≠ [] then
    let sanitized := sanitize_template_name d.template_name
    let lowRepl :=
      (d.template_name.map Char.toLower).map (fun c => if c = ' ' then '_' else c)
    let d2 :=
      if sanitized ≠ lowRepl ∧ (d.actual_name = [] ∨ d.actual_name = lowRepl) then
        { d with actual_name := sanitized }
      else d
    if matchesProviderName sanitized then ([], .ok d2)
    else ([], .error .invalidTemplateName)
  else ([], .ok d)

/-- Media upload for IMAGE/DOCUMENT headers with a sample file
(lines 42-44): `get_session_id` + `get_media_id`, whose HTTP errors
propagate. -/
def step_media (env : TmplEnv) : TStep := fun d =>
  if (d.header_type = "IMAGE".toList ∨ d.header_type = "DOCUMENT".toList)
      ∧ d.sample ≠ [] then
    ([.mediaUpload], if env.mediaOk then .ok d else .error .mediaUploadFailed)
  else ([], .ok d)

/-- Template-body character-limit check (lines 46-76). -/
def step_body_limit : TStep := fun d =>
  if d.template ≠ [] then
    let limit :=
      if d.category = "AUTHENTICATION".toList ∨ d.category = "OTP".toList then 1024
      else if d.header_type = "IMAGE".toList ∨ d.header_type = "VIDEO".toList
          ∨ d.header_type = "DOCUMENT".toList then 1024
      else 4096
    if limit < d.template.length then ([], .error .bodyLimitExceeded)
    else ([], .ok d)
  else ([], .ok d)

/-- Header character-limit check (lines 78-88). -/
def step_header_limit : TStep := fun d =>
  if d.header_type = "TEXT".toList ∧ d.header ≠ [] then
    if 60 < d.header.length then ([], .error .headerLimitExceeded)
    else ([], .ok d)
  else ([], .ok d)

/-- Footer character-limit check (lines 90-100). -/
def step_footer_limit : TStep := fun d =>
  if d.footer ≠ [] then
    if 60 < d.footer.length then ([], .error .footerLimitExceeded)
    else ([], .ok d)
  else ([], .ok d)

/-- Sample-values presence and count check (lines 102-125). -/
def step_samples : TStep := fun d =>
  if d.template ≠ [] then
    let pc := get_parameter_count (some d.template)
    if 0 < pc then
      if d.sample_values = [] then ([], .error .sampleValuesRequired)
      else
        let sampleList := parse_sample_values d.sample_values (some pc)
        if sampleList.length ≠ pc then ([], .error .sampleValuesMismatch)
        else ([], .ok d)
    else ([], .ok d)
  else ([], .ok d)

/-- The remote-update block (lines 127-141): only a saved document with a
provider id is updated; PENDING/APPROVED/REJECTED status (case-insensitively)
skips the remote call; a failing `update_template` is caught and logged. -/
def step_update (env : TmplEnv) : TStep := fun d =>
  if d.is_new = false ∧ d.id ≠ [] then
    let up := d.status.map Char.toUpper
    if d.status ≠ [] ∧ (up = "PENDING".toList ∨ up = "APPROVED".toList
        ∨ up = "REJECTED".toList) then
      ([], .ok d)
    else
      (.remoteUpdate :: (if env.updateOk then [] else [.updateErrorLogged]), .ok d)
  else ([], .ok d)

/-- Sequencing of statement blocks: a throw aborts the rest, effects
accumulate. -/
def runSteps : List TStep → TmplDoc → List TEffect × Except VErr TmplDoc
  | [], d => ([], .ok d)
  | f :: fs, d =>
    match f d with
    | (effs, .error e) => (effs, .error e)
    | (effs, .ok d2) =>
      match runSteps fs d2 with
      | (effs2, r) => (effs ++ effs2, r)

/-- The statement blocks of `validate`, in source order. -/
def validateSteps (env : TmplEnv) : List TStep :=
  [step_set_account env, step_language env, step_name, step_media env,
   step_body_limit, step_header_limit, step_footer_limit, step_samples,
   step_update env]

/-- `WhatsAppTemplates.validate(self)`. -/
def validate (d : TmplDoc) (env : TmplEnv) : List TEffect × Except VErr TmplDoc :=
  runSteps (validateSteps env) d

/-- The first seven statement blocks of `validate` (everything before the
sample-values check). -/
def pre7 (env : TmplEnv) : List TStep :=
  [step_set_account env, step_language env, step_name, step_media env,
   step_body_limit, step_header_limit, step_footer_limit]

/-- A concrete saved template document with a provider id and PENDING status. -/
def C6doc : TmplDoc :=
  { is_new := false, template_name := "hello world".toList,
    actual_name := "hello_world".toList, language := "English".toList,
    language_code := "en".toList, langChanged := false, header_type := [],
    header := [], footer := [], category := "MARKETING".toList,
    template := "hi".toList, sample_values := [], sample := [],
    status := "PENDING".toList, id := "123".toList,
    whatsapp_account := "acc".toList }

/-- A concrete new template document with one placeholder and one sample value. -/
def C9doc : TmplDoc :=
  { is_new := true, template_name := "hello world".toList,
    actual_name := "hello_world".toList, language := "English".toList,
    language_code := "en".toList, langChanged := false, header_type := [],
    header := [], footer := [], category := "MARKETING".toList,
    template := "{{1}}".toList, sample_values := "foo".toList, sample := [],
    status := [], id := [], whatsapp_account := "acc".toList }

/-- A concrete environment for the template-validation witnesses. -/
def tmplEnvEx : TmplEnv :=
  { langLookup := fun _ => some ("en".toList),
    defaultAccount := some ("acc".toList), mediaOk := true, updateOk := true }

/-! ## Helper lemmas -/

theorem dropWhile_suffix (p : Char → Bool) (l : List Char) : l.dropWhile p <:+ l := by
  induction l with
  | nil => exact List.suffix_rfl
  | cons c rest ih =>
    by_cases hc : p c
    · simpa [List.dropWhile, hc] using ih.trans (List.suffix_cons c rest)
    · simp [List.dropWhile, hc]

theorem dropTrailing_prefix (p : Char → Bool) (l : List Char) :
    dropTrailing p l <+: l := by
  obtain ⟨t, ht⟩ := dropWhile_suffix p l.reverse
  exact ⟨t.reverse, by rw [dropTrailing, ← List.reverse_append, ht, List.reverse_reverse]⟩

theorem pyStrip_infix (l : List Char) : pyStrip l <:+: l :=
  ( dropTrailing_prefix isPyWs (l.dropWhile isPyWs)).isInfix.trans
    (dropWhile_suffix isPyWs l).isInfix

theorem mem_pyStrip {c : Char} {l : List Char} (h : c ∈ pyStrip l) : c ∈ l :=
  ( pyStrip_infix l).subset h

theorem replaceWs_not_bad {c : Char} {l : List Char} (h : c ∈ replaceWsWithSpace l) :
    c ≠ '\n' ∧ c ≠ '\r' ∧ c ≠ '\t' := by
  simp only [replaceWsWithSpace, List.mem_map] at h
  obtain ⟨a, _, rfl⟩ := h
  by_cases ha : a = '\n' ∨ a = '\r' ∨ a = '\t'
  · rcases ha with rfl | rfl | rfl <;> simp
  · push_neg at ha
    obtain ⟨h1, h2, h3⟩ := ha
    simp [h1, h2, h3]

theorem mem_collapseRun {c : Char} {n : Nat} (h : c ∈ collapseRun n) : c = ' ' :=
  (List.eq_of_mem_replicate h)

theorem mem_collapseSpacesAux {c : Char} :
    ∀ (l : List Char) (n : Nat), c ∈ collapseSpacesAux l n → c ∈ l ∨ c = ' ' := by
  intro l
  induction l with
  | nil => intro n h; exact Or.inr (mem_collapseRun h)
  | cons a rest ih =>
    intro n h
    by_cases ha : a = ' '
    · subst ha
      simp only [collapseSpacesAux, if_pos rfl] at h
      rcases ih (n + 1) h with h' | h'
      · exact Or.inl (List.mem_cons_of_mem _ h')
      · exact Or.inr h'
    · simp only [collapseSpacesAux, if_neg ha, List.mem_append, List.mem_cons] at h
      rcases h with h' | rfl | h'
      · exact Or.inr (mem_collapseRun h')
      · exact Or.inl (List.mem_cons_self _ _)
      · rcases ih 0 h' with h'' | h''
        · exact Or.inl (List.mem_cons_of_mem _ h'')
        · exact Or.inr h''

theorem mem_collapseSpaces {c : Char} {l : List Char} (h : c ∈ collapseSpaces l) :
    c ∈ l ∨ c = ' ' :=
  mem_collapseSpacesAux l 0 h

theorem rep_sp_prefix_of_le {m n : Nat} (h : m ≤ n) :
    List.replicate m ' ' <+: List.replicate n ' ' :=
  ⟨List.replicate (n - m) ' ', by rw [← List.replicate_add]; congr 1; omega⟩

theorem not_rep5_infix_replicate {n : Nat} (h : n ≤ 4) :
    ¬ List.replicate 5 ' ' <:+: List.replicate n ' ' := by
  intro hi
  have := hi.length_le
  simp only [List.length_replicate] at this
  omega

theorem not_rep5_infix_cons {c : Char} {l : List Char} (hc : c ≠ ' ')
    (hl : ¬ List.replicate 5 ' ' <:+: l) :
    ¬ List.replicate 5 ' ' <:+: c :: l := by
  intro h
  rcases List.infix_cons_iff.mp h with hpre | hinf
  · have h5 : (' ' :: List.replicate 4 ' ' : List Char) <+: c :: l := by
      simpa [List.replicate_succ] using hpre
    exact hc (List.cons_prefix_cons.mp h5).1.symm
  · exact hl hinf

theorem not_rep_sp_prefix_append {m k : Nat} {l : List Char}
    (hk : k < m) (hl : l = [] ∨ ∃ c t, l = c :: t ∧ c ≠ ' ') :
    ¬ List.replicate m ' ' <+: List.replicate k ' ' ++ l := by
  induction k generalizing m with
  | zero =>
    intro h
    simp only [List.replicate_zero, List.nil_append] at h
    rcases hl with rfl | ⟨c, t, rfl, hc⟩
    · have := h.length_le
      simp only [List.length_replicate, List.length_nil] at this
      omega
    · have hm : m = (m - 1) + 1 := by omega
      rw [hm, List.replicate_succ] at h
      exact hc (List.cons_prefix_cons.mp h).1.symm
  | succ k ih =>
    intro h
    have hm : m = (m - 1) + 1 := by omega
    rw [hm, List.replicate_succ, List.replicate_succ, List.cons_append] at h
    exact ih (m := m - 1) (by omega) (List.cons_prefix_cons.mp h).2

theorem not_rep5_infix_append {k : Nat} {l : List Char} (hk : k ≤ 4)
    (hl : l = [] ∨ ∃ c t, l = c :: t ∧ c ≠ ' ')
    (h : ¬ List.replicate 5 ' ' <:+: l) :
    ¬ List.replicate 5 ' ' <:+: List.replicate k ' ' ++ l := by
  induction k with
  | zero => simpa using h
  | succ k ih =>
    intro hi
    have hrw : List.replicate (k + 1) ' ' ++ l = ' ' :: (List.replicate k ' ' ++ l) := by
      simp [List.replicate_succ]
    rw [hrw] at hi
    rcases List.infix_cons_iff.mp hi with hpre | hinf
    · have h5 : (' ' :: List.replicate 4 ' ' : List Char) <+:
          ' ' :: (List.replicate k ' ' ++ l) := by
        simpa [List.replicate_succ] using hpre
      exact not_rep_sp_prefix_append (m := 4) (by omega) hl
        (List.cons_prefix_cons.mp h5).2
    · exact ih (by omega) hinf

theorem collapseRun_eq {n : Nat} :
    ∃ k, k ≤ 4 ∧ collapseRun n = List.replicate k ' ' := by
  unfold collapseRun
  by_cases h : 5 ≤ n
  · exact ⟨4, by omega, by rw [if_pos h]⟩
  · exact ⟨n, by omega, by rw [if_neg h]⟩

theorem collapse_no_rep5 :
    ∀ (l : List Char) (n : Nat), ¬ List.replicate 5 ' ' <:+: collapseSpacesAux l n := by
  intro l
  induction l with
  | nil =>
    intro n
    obtain ⟨k, hk, he⟩ := collapseRun_eq (n := n)
    simpa [collapseSpacesAux, he] using not_rep5_infix_replicate hk
  | cons c rest ih =>
    intro n
    by_cases hc : c = ' '
    · subst hc
      simpa [collapseSpacesAux] using ih (n + 1)
    · obtain ⟨k, hk, he⟩ := collapseRun_eq (n := n)
      simp only [collapseSpacesAux, if_neg hc, he]
      exact not_rep5_infix_append hk (Or.inr ⟨c, _, rfl, hc⟩)
        (not_rep5_infix_cons hc (ih 0))

theorem rep5_infix_of_rep_append {n : Nat} (h : 5 ≤ n) (l : List Char) :
    List.replicate 5 ' ' <:+: List.replicate n ' ' ++ l :=
  (((rep_sp_prefix_of_le h).trans (List.prefix_append _ l))).isInfix

theorem collapse_eq_self_aux :
    ∀ (l : List Char) (n : Nat),
      ¬ List.replicate 5 ' ' <:+: (List.replicate n ' ' ++ l) →
      collapseSpacesAux l n = List.replicate n ' ' ++ l := by
  intro l
  induction l with
  | nil =>
    intro n h
    have hn : ¬ 5 ≤ n := fun h5 => h (rep5_infix_of_rep_append h5 [])
    simp [collapseSpacesAux, collapseRun, if_neg hn]
  | cons c rest ih =>
    intro n h
    by_cases hc : c = ' '
    · subst hc
      have heq : List.replicate n ' ' ++ ' ' :: rest =
          List.replicate (n + 1) ' ' ++ rest := by
        rw [List.replicate_succ']
        simp
      rw [heq] at h
      have hstep : collapseSpacesAux (' ' :: rest) n = collapseSpacesAux rest (n + 1) := by
        simp [collapseSpacesAux]
      rw [hstep, ih (n + 1) h, heq]
    · have hn : ¬ 5 ≤ n := fun h5 => h (rep5_infix_of_rep_append h5 (c :: rest))
      have hrest : ¬ List.replicate 5 ' ' <:+: rest := by
        intro hi
        exact h (hi.trans ((List.suffix_cons c rest).isInfix.trans
          ((List.suffix_append _ _).isInfix)))
      simp only [collapseSpacesAux, if_neg hc, collapseRun, if_neg hn]
      rw [ih 0 hrest]
      simp

theorem dropWhile_head_false {p : Char → Bool} :
    ∀ {l : List Char} {c : Char} {t : List Char}, l.dropWhile p = c :: t → p c = false := by
  intro l
  induction l with
  | nil => intro c t h; simp [List.dropWhile] at h
  | cons a rest ih =>
    intro c t h
    by_cases ha : p a
    · rw [List.dropWhile_cons_of_pos ha] at h
      exact ih h
    · rw [List.dropWhile_cons_of_neg ha] at h
      cases h
      simpa using ha

theorem dropWhile_eq_self_of_head {p : Char → Bool} {l : List Char}
    (h : ∀ c t, l = c :: t → p c = false) : l.dropWhile p = l := by
  cases l with
  | nil => rfl
  | cons c t => rw [List.dropWhile_cons_of_neg (by simp [h c t rfl])]

theorem stripBoth_head_false {p : Char → Bool} {l : List Char} {c : Char}
    {t : List Char} (h : dropTrailing p (l.dropWhile p) = c :: t) : p c = false := by
  obtain ⟨t2, h2⟩ := dropTrailing_prefix p (l.dropWhile p)
  rw [h] at h2
  exact dropWhile_head_false (l := l) h2.symm

theorem stripBoth_getLast_false {p : Char → Bool} {l : List Char} {c : Char}
    (h : (dropTrailing p (l.dropWhile p)).getLast? = some c) : p c = false := by
  unfold dropTrailing at h
  rw [List.getLast?_reverse] at h
  cases hx : (l.dropWhile p).reverse.dropWhile p with
  | nil => rw [hx] at h; simp at h
  | cons a t =>
    rw [hx] at h
    simp only [List.head?_cons, Option.some.injEq] at h
    subst h
    exact dropWhile_head_false hx

theorem stripBoth_eq_self {p : Char → Bool} {l : List Char}
    (h1 : ∀ c t, l = c :: t → p c = false)
    (h2 : ∀ c, l.getLast? = some c → p c = false) :
    dropTrailing p (l.dropWhile p) = l := by
  rw [dropWhile_eq_self_of_head h1]
  unfold dropTrailing
  rw [dropWhile_eq_self_of_head, List.reverse_reverse]
  intro c t hct
  apply h2
  rw [← List.head?_reverse, hct]
  rfl

theorem replaceWs_eq_self {l : List Char}
    (h : ∀ c ∈ l, c ≠ '\n' ∧ c ≠ '\r' ∧ c ≠ '\t') : replaceWsWithSpace l = l := by
  induction l with
  | nil => rfl
  | cons c rest ih =>
    have hc := h c (List.mem_cons_self _ _)
    have hr := ih (fun a ha => h a (List.mem_cons_of_mem _ ha))
    simp only [replaceWsWithSpace, List.map_cons]
    simp only [replaceWsWithSpace] at hr
    rw [hr]
    congr 1
    simp [hc.1, hc.2.1, hc.2.2]

theorem sanitize_dash_of_strip_nil {s : List Char} (h0 : s ≠ [])
    (h1 : pyStrip (collapseSpaces (replaceWsWithSpace s)) = []) :
    sanitize_whatsapp_param (some s) = ['-'] := by
  simp only [sanitize_whatsapp_param, if_neg h0]
  rw [if_pos h1]

theorem sanitize_text_of_strip_ne_nil {s : List Char} (h0 : s ≠ [])
    (h1 : pyStrip (collapseSpaces (replaceWsWithSpace s)) ≠ []) :
    sanitize_whatsapp_param (some s) =
      pyStrip (collapseSpaces (replaceWsWithSpace s)) := by
  simp only [sanitize_whatsapp_param, if_neg h0]
  rw [if_neg h1]

/-! ## Claim theorems -/

/-- C1: for every input value, `sanitize_whatsapp_param` returns a string that
contains no newline, carriage-return, or tab character and no run of five or
more consecutive spaces; the inputs `None` and `""` yield exactly `"-"`, and so
does any input whose text becomes empty after the newline/tab replacement,
space collapsing, and stripping. -/
theorem C1_sanitize_whatsapp_param_spec :
    (∀ v : Option (List Char),
      '\n' ∉ sanitize_whatsapp_param v ∧ '\r' ∉ sanitize_whatsapp_param v ∧
      '\t' ∉ sanitize_whatsapp_param v ∧
      ¬ List.replicate 5 ' ' <:+: sanitize_whatsapp_param v) ∧
    sanitize_whatsapp_param none = ['-'] ∧
    sanitize_whatsapp_param (some []) = ['-'] ∧
    (∀ s : List Char, pyStrip (collapseSpaces (replaceWsWithSpace s)) = [] →
      sanitize_whatsapp_param (some s) = ['-']) := by
  refine ⟨?_, by decide, by decide, ?_⟩
  · intro v
    match v with
    | none => exact ⟨by decide, by decide, by decide, by decide⟩
    | some s =>
      by_cases h0 : s = []
      · subst h0
        exact ⟨by decide, by decide, by decide, by decide⟩
      · by_cases h1 : pyStrip (collapseSpaces (replaceWsWithSpace s)) = []
        · rw [sanitize_dash_of_strip_nil h0 h1]
          exact ⟨by decide, by decide, by decide, by decide⟩
        · rw [sanitize_text_of_strip_ne_nil h0 h1]
          refine ⟨?_, ?_, ?_, ?_⟩
          · intro hmem
            rcases mem_collapseSpaces (mem_pyStrip hmem) with h3 | h3
            · exact (replaceWs_not_bad h3).1 rfl
            · exact absurd h3 (by decide)
          · intro hmem
            rcases mem_collapseSpaces (mem_pyStrip hmem) with h3 | h3
            · exact (replaceWs_not_bad h3).2.1 rfl
            · exact absurd h3 (by decide)
          · intro hmem
            rcases mem_collapseSpaces (mem_pyStrip hmem) with h3 | h3
            · exact (replaceWs_not_bad h3).2.2 rfl
            · exact absurd h3 (by decide)
          · exact fun hi => collapse_no_rep5 _ 0 (hi.trans ( pyStrip_infix _))
  · intro s hs
    by_cases h0 : s = []
    · subst h0; decide
    · exact sanitize_dash_of_strip_nil h0 hs

/-- C10: `sanitize_whatsapp_param` is idempotent: applying it to its own
output returns that output unchanged. -/
theorem C10_sanitize_whatsapp_param_idempotent (v : Option (List Char)) :
    sanitize_whatsapp_param (some (sanitize_whatsapp_param v)) =
      sanitize_whatsapp_param v := by
  match v with
  | none => decide
  | some s =>
    by_cases h0 : s = []
    · subst h0; decide
    · by_cases h1 : pyStrip (collapseSpaces (replaceWsWithSpace s)) = []
      · rw [sanitize_dash_of_strip_nil h0 h1]; decide
      · rw [sanitize_text_of_strip_ne_nil h0 h1]
        set r := pyStrip (collapseSpaces (replaceWsWithSpace s)) with hr
        have hnotbad : ∀ c ∈ r, c ≠ '\n' ∧ c ≠ '\r' ∧ c ≠ '\t' := by
          intro c hc
          rcases mem_collapseSpaces (mem_pyStrip hc) with h3 | h3
          · exact replaceWs_not_bad h3
          · subst h3; exact ⟨by decide, by decide, by decide⟩
        have hrep : replaceWsWithSpace r = r := replaceWs_eq_self hnotbad
        have hno5 : ¬ List.replicate 5 ' ' <:+: r :=
          fun hi => collapse_no_rep5 _ 0 (hi.trans ( pyStrip_infix _))
        have hcol : collapseSpaces r = r := by
          have h2 := collapse_eq_self_aux r 0 (by simpa using hno5)
          simpa [collapseSpaces] using h2
        have hstrip : pyStrip r = r := by
          unfold pyStrip
          apply stripBoth_eq_self
          · intro c t hct
            exact stripBoth_head_false
              (show dropTrailing isPyWs
                ((collapseSpaces (replaceWsWithSpace s)).dropWhile isPyWs) = c :: t
                from hct)
          · intro c hct
            exact stripBoth_getLast_false
              (show (dropTrailing isPyWs
                ((collapseSpaces (replaceWsWithSpace s)).dropWhile isPyWs)).getLast?
                = some c from hct)
        simp only [sanitize_whatsapp_param, if_neg h1]
        rw [hrep, hcol, hstrip]
        rw [if_neg h1]

theorem mem_dropWhile {p : Char → Bool} {c : Char} {l : List Char}
    (h : c ∈ l.dropWhile p) : c ∈ l :=
  (dropWhile_suffix p l).subset h

theorem mem_dropTrailing {p : Char → Bool} {c : Char} {l : List Char}
    (h : c ∈ dropTrailing p l) : c ∈ l :=
  ( dropTrailing_prefix p l).subset h

theorem mem_pyStripChar {ch c : Char} {l : List Char} (h : c ∈ pyStripChar ch l) :
    c ∈ l :=
  mem_dropWhile (mem_dropTrailing h)

theorem mem_subRunsAux {p : Char → Bool} {c : Char} :
    ∀ (l : List Char) (b : Bool), c ∈ subRunsAux p l b → c ∈ l ∨ c = '_' := by
  intro l
  induction l with
  | nil => intro b h; simp [subRunsAux] at h
  | cons a rest ih =>
    intro b h
    simp only [subRunsAux] at h
    split_ifs at h with hp hb
    · rcases ih true h with h' | h'
      · exact Or.inl (List.mem_cons_of_mem _ h')
      · exact Or.inr h'
    · rcases List.mem_cons.mp h with rfl | h'
      · exact Or.inr rfl
      · rcases ih true h' with h'' | h''
        · exact Or.inl (List.mem_cons_of_mem _ h'')
        · exact Or.inr h''
    · rcases List.mem_cons.mp h with rfl | h'
      · exact Or.inl (List.mem_cons_self _ _)
      · rcases ih false h' with h'' | h''
        · exact Or.inl (List.mem_cons_of_mem _ h'')
        · exact Or.inr h''

theorem lowerDigit_imp_templateChar {c : Char} (h : isLowerDigit c = true) :
    isTemplateChar c = true := by
  simp only [isLowerDigit, Bool.or_eq_true] at h
  simp only [isTemplateChar, Bool.or_eq_true]
  tauto

theorem sanitize_core_chars {name : List Char} :
    ∀ x ∈ pyStripChar '_' (subRuns (· = '_')
      ((subRuns isSepChar (name.map Char.toLower)).filter isTemplateChar)),
      isTemplateChar x = true := by
  intro x hx
  rcases mem_subRunsAux _ false (mem_pyStripChar hx) with hx' | hx'
  · exact (List.mem_filter.mp hx').2
  · subst hx'; decide

theorem sanitize_template_name_chars {name : List Char} {c : Char}
    (h : c ∈ sanitize_template_name name) : isTemplateChar c = true := by
  by_cases h0 : name = []
  · subst h0; simp [sanitize_template_name] at h
  · simp only [sanitize_template_name, if_neg h0] at h
    cases hm : pyStripChar '_' (subRuns (· = '_')
        ((subRuns isSepChar (name.map Char.toLower)).filter isTemplateChar)) with
    | nil =>
      rw [hm] at h
      simp only [prependUnderscoreIfDigit, eq_self_iff_true, if_true] at h
      rw [List.mem_append] at h
      rcases h with hl | hr
      · fin_cases hl <;> decide
      · exact lowerDigit_imp_templateChar
          (List.mem_filter.mp (List.mem_of_mem_take hr)).2
    | cons a t =>
      rw [hm] at h
      have hsub := @sanitize_core_chars name
      rw [hm] at hsub
      simp only [prependUnderscoreIfDigit] at h
      by_cases hd : a.isDigit
      · rw [if_pos hd] at h
        rw [if_neg (by simp)] at h
        rcases List.mem_cons.mp h with rfl | h'
        · decide
        · exact hsub c h'
      · rw [if_neg hd] at h
        rw [if_neg (by simp)] at h
        exact hsub c h

theorem sanitize_template_name_head {name : List Char} (h0 : name ≠ []) :
    ∃ c t, sanitize_template_name name = c :: t ∧
      (isLowerAlpha c = true ∨ c = '_') := by
  simp only [sanitize_template_name, if_neg h0]
  cases hm : pyStripChar '_' (subRuns (· = '_')
      ((subRuns isSepChar (name.map Char.toLower)).filter isTemplateChar)) with
  | nil =>
    refine ⟨'t', ('e' :: 'm' :: 'p' :: 'l' :: 'a' :: 't' :: 'e' :: '_' :: []) ++
      ((name.map Char.toLower).filter isLowerDigit).take 20, ?_, Or.inl (by decide)⟩
    simp [prependUnderscoreIfDigit]
  | cons a t =>
    have hne : (decide (a = '_')) = false :=
      stripBoth_head_false (p := fun x => decide (x = '_')) hm
    have hne' : a ≠ '_' := by simpa using hne
    have hta : isTemplateChar a = true := by
      have := @sanitize_core_chars name
      rw [hm] at this
      exact this a (List.mem_cons_self _ _)
    simp only [prependUnderscoreIfDigit]
    by_cases hd : a.isDigit
    · rw [if_pos hd]
      exact ⟨'_', a :: t, by simp, Or.inr rfl⟩
    · rw [if_neg hd]
      refine ⟨a, t, by simp, Or.inl ?_⟩
      have hdf : a.isDigit = false := by simpa using hd
      simp only [isTemplateChar, Bool.or_eq_true, hdf] at hta
      rcases hta with (h' | h') | h'
      · exact h'
      · cases h'
      · exact absurd (by simpa using h') hne'

/-- C2 counterexample: the nonempty input `"9"` is sanitized to `"_9"`, which
does not match `^[a-z][a-z0-9_]*$`. -/
theorem C2_counterexample :
    (['9'] : List Char) ≠ [] ∧ sanitize_template_name ['9'] = ['_', '9'] ∧
    matchesProviderName (sanitize_template_name ['9']) = false := by
  decide

/-- C2 amended: for every non-empty input, the output of
`sanitize_template_name` is non-empty, consists only of lowercase letters,
digits, and underscores, and starts with a lowercase letter *or an
underscore* (the underscore arises when the cleaned name starts with a
digit). -/
theorem C2_template_name_amended (name : List Char) (h : name ≠ []) :
    sanitize_template_name name ≠ [] ∧
    (∀ c ∈ sanitize_template_name name, isTemplateChar c = true) ∧
    (∃ c t, sanitize_template_name name = c :: t ∧
      (isLowerAlpha c = true ∨ c = '_')) := by
  obtain ⟨c, t, hct, hc⟩ := sanitize_template_name_head h
  exact ⟨by rw [hct]; exact List.cons_ne_nil c t,
    fun x hx => sanitize_template_name_chars hx, ⟨c, t, hct, hc⟩⟩

/-- C2 amended, witnessed at the concrete input `"a"`. -/
theorem C2_template_name_amended_witness :
    sanitize_template_name ['a'] ≠ [] ∧
    (∀ c ∈ sanitize_template_name ['a'], isTemplateChar c = true) ∧
    (∃ c t, sanitize_template_name ['a'] = c :: t ∧
      (isLowerAlpha c = true ∨ c = '_')) :=
  C2_template_name_amended ['a'] (by decide)

theorem maxList_le {l : List Nat} {n : Nat} (h : n ∈ l) : n ≤ maxList l := by
  induction l with
  | nil => cases h
  | cons a t ih =>
    rcases List.mem_cons.mp h with rfl | h'
    · exact le_max_left _ _
    · exact le_trans (ih h') (le_max_right _ _)

theorem maxList_mem : ∀ {l : List Nat}, maxList l = 0 ∨ maxList l ∈ l := by
  intro l
  induction l with
  | nil => exact Or.inl rfl
  | cons a t ih =>
    have hm : maxList (a :: t) = max a (maxList t) := rfl
    rcases le_total (maxList t) a with h | h
    · right
      rw [hm, max_eq_left h]
      exact List.mem_cons_self _ _
    · rcases ih with h0 | hmem
      · left; rw [hm, max_eq_right h, h0]
      · right
        rw [hm, max_eq_right h]
        exact List.mem_cons_of_mem _ hmem

theorem placeholderAt_of_suffix {t t' : List Char} {n : Nat}
    (h : placeholderAt t n) (hs : t <:+ t') : placeholderAt t' n := by
  obtain ⟨ds, h1, h2, h3, h4⟩ := h
  exact ⟨ds, h1, h2, h3, h4.trans hs.isInfix⟩

theorem placeholder_pattern_length {ds : List Char} :
    ('{' :: '{' :: (ds ++ '}' :: '}' :: [])).length = ds.length + 4 := by
  simp

theorem not_placeholderAt_nil {n : Nat} : ¬ placeholderAt [] n := by
  rintro ⟨ds, h1, -, -, h4⟩
  have := h4.length_le
  simp at this

theorem not_placeholderAt_single {c : Char} {n : Nat} : ¬ placeholderAt [c] n := by
  rintro ⟨ds, h1, -, -, h4⟩
  have := h4.length_le
  rw [placeholder_pattern_length] at this
  simp at this

theorem scanPHF_sound :
    ∀ (fuel : Nat) (l : List Char) (n : Nat),
      n ∈ scanPHF fuel l → placeholderAt l n := by
  intro fuel
  induction fuel with
  | zero => intro l n h; simp [scanPHF] at h
  | succ fuel ih =>
    intro l n h
    match l with
    | [] => simp [scanPHF] at h
    | [c] => simp [scanPHF] at h
    | c1 :: c2 :: rest =>
      rw [scanPHF] at h
      split_ifs at h with hg
      · obtain ⟨rfl, rfl, htw, htk⟩ := hg
        have hds : rest = rest.takeWhile Char.isDigit ++
            ('}' :: '}' :: (rest.dropWhile Char.isDigit).drop 2) := by
          conv_lhs => rw [← List.takeWhile_append_dropWhile (p := Char.isDigit) (l := rest)]
          congr 1
          conv_lhs => rw [← List.take_append_drop 2 (rest.dropWhile Char.isDigit)]
          rw [htk]
          rfl
        rcases List.mem_cons.mp h with rfl | h'
        · refine ⟨rest.takeWhile Char.isDigit, htw,
            fun c hc => List.mem_takeWhile_imp hc, rfl, ?_⟩
          refine (List.IsPrefix.isInfix ?_)
          refine ⟨(rest.dropWhile Char.isDigit).drop 2, ?_⟩
          conv_rhs => rw [hds]
          simp
        · have hsfx : (rest.dropWhile Char.isDigit).drop 2 <:+ '{' :: '{' :: rest := by
            refine ⟨'{' :: '{' :: rest.takeWhile Char.isDigit ++ ['}', '}'], ?_⟩
            conv_rhs => rw [hds]
            simp
          exact placeholderAt_of_suffix (ih _ _ h') hsfx
      · exact placeholderAt_of_suffix (ih _ _ h) (List.suffix_cons c1 (c2 :: rest))

theorem digitStr_not_brace {c : Char} (h : c.isDigit = true) : c ≠ '{' ∧ c ≠ '}' := by
  constructor
  · rintro rfl; simp [Char.isDigit] at h
  · rintro rfl; simp [Char.isDigit] at h

theorem digit_prefix_unique :
    ∀ (ds DS rest2 : List Char), (∀ c ∈ ds, c.isDigit) → (∀ c ∈ DS, c.isDigit) →
      (ds ++ ['}', '}']) <+: (DS ++ '}' :: '}' :: rest2) → ds = DS := by
  intro ds
  induction ds with
  | nil =>
    intro DS rest2 _ hDS h
    cases DS with
    | nil => rfl
    | cons d dt =>
      simp only [List.nil_append, List.cons_append] at h
      have := (List.cons_prefix_cons.mp h).1
      have hd := hDS d (List.mem_cons_self _ _)
      exact absurd (this ▸ hd) (by decide)
  | cons d dt ih =>
    intro DS rest2 hds hDS h
    cases DS with
    | nil =>
      simp only [List.cons_append, List.nil_append] at h
      have := (List.cons_prefix_cons.mp h).1
      have hd := hds d (List.mem_cons_self _ _)
      exact absurd (this ▸ hd) (by decide)
    | cons D0 DT =>
      simp only [List.cons_append] at h
      obtain ⟨heq, hpre⟩ := List.cons_prefix_cons.mp h
      subst heq
      rw [ih DT rest2 (fun c hc => hds c (List.mem_cons_of_mem _ hc))
        (fun c hc => hDS c (List.mem_cons_of_mem _ hc)) hpre]

theorem infix_through_nonbrace :
    ∀ (xs : List Char) {tail pat : List Char} {pr : List Char},
      pat = '{' :: pr → (∀ x ∈ xs, x ≠ '{') → pat <:+: xs ++ tail →
      pat <:+: tail := by
  intro xs
  induction xs with
  | nil => intro tail pat pr _ _ h; simpa using h
  | cons x xt ih =>
    intro tail pat pr hpat hx h
    rw [List.cons_append] at h
    rcases List.infix_cons_iff.mp h with hpre | hinf
    · subst hpat
      have := (List.cons_prefix_cons.mp hpre).1
      exact absurd this.symm (hx x (List.mem_cons_self _ _))
    · exact ih hpat (fun y hy => hx y (List.mem_cons_of_mem _ hy)) hinf

theorem takeWhile_digit_append {ds : List Char} (h : ∀ c ∈ ds, c.isDigit)
    (xs : List Char) :
    (ds ++ '}' :: xs).takeWhile Char.isDigit = ds ∧
    (ds ++ '}' :: xs).dropWhile Char.isDigit = '}' :: xs := by
  induction ds with
  | nil =>
    simp [List.takeWhile, List.dropWhile, Char.isDigit]
  | cons d dt ih =>
    have hd : d.isDigit = true := h d (List.mem_cons_self _ _)
    have iht := ih (fun c hc => h c (List.mem_cons_of_mem _ hc))
    constructor
    · rw [List.cons_append, List.takeWhile_cons_of_pos hd, iht.1]
    · rw [List.cons_append, List.dropWhile_cons_of_pos hd, iht.2]

theorem scanPHF_complete :
    ∀ (fuel : Nat) (l : List Char) (n : Nat),
      l.length ≤ fuel → placeholderAt l n → n ∈ scanPHF fuel l := by
  intro fuel
  induction fuel with
  | zero =>
    intro l n hlen hp
    rw [List.length_eq_zero.mp (Nat.le_zero.mp hlen)] at hp
    exact absurd hp not_placeholderAt_nil
  | succ fuel ih =>
    intro l n hlen hp
    match l with
    | [] => exact absurd hp not_placeholderAt_nil
    | [c] => exact absurd hp not_placeholderAt_single
    | c1 :: c2 :: rest =>
      obtain ⟨ds, hds, hdig, hval, hinf⟩ := hp
      rw [scanPHF]
      split_ifs with hg
      · -- the scanner matches here: the occurrence is either this match or
        -- lies wholly inside the remainder
        obtain ⟨rfl, rfl, htw, htk⟩ := hg
        have hsplit : rest = rest.takeWhile Char.isDigit ++
            ('}' :: '}' :: (rest.dropWhile Char.isDigit).drop 2) := by
          conv_lhs => rw [← List.takeWhile_append_dropWhile (p := Char.isDigit) (l := rest)]
          congr 1
          conv_lhs => rw [← List.take_append_drop 2 (rest.dropWhile Char.isDigit)]
          rw [htk]
          rfl
        rcases List.infix_cons_iff.mp hinf with hpre | hinf1
        · -- prefix occurrence: the digit strings coincide
          refine List.mem_cons.mpr (Or.inl ?_)
          obtain ⟨-, hpre1⟩ := List.cons_prefix_cons.mp hpre
          obtain ⟨-, hpre2⟩ := List.cons_prefix_cons.mp hpre1
          have hpre3 : (ds ++ ['}', '}']) <+: rest.takeWhile Char.isDigit ++
              '}' :: '}' :: (rest.dropWhile Char.isDigit).drop 2 := by
            rw [← hsplit]
            simpa using hpre2
          rw [← hval,
            digit_prefix_unique ds (rest.takeWhile Char.isDigit) _ hdig
              (fun c hc => List.mem_takeWhile_imp hc) hpre3]
        · rcases List.infix_cons_iff.mp hinf1 with hpre2 | hinf2
          · -- a match cannot start at the second `{`: the next character is a digit
            exfalso
            obtain ⟨-, hpre3⟩ := List.cons_prefix_cons.mp hpre2
            cases hT : rest.takeWhile Char.isDigit with
            | nil => exact htw hT
            | cons d dt =>
              have hrest : rest = d :: (dt ++
                  ('}' :: '}' :: (rest.dropWhile Char.isDigit).drop 2)) := by
                conv_lhs => rw [hsplit, hT]
                simp
              rw [hrest] at hpre3
              have hd : d.isDigit := List.mem_takeWhile_imp (l := rest)
                (by rw [hT]; exact List.mem_cons_self _ _)
              have := (List.cons_prefix_cons.mp hpre3).1
              rw [← this] at hd
              simp [Char.isDigit] at hd
          · -- the occurrence lies inside the remainder after the match
            refine List.mem_cons.mpr (Or.inr ?_)
            have hxs : ∀ x ∈ rest.takeWhile Char.isDigit ++ ['}', '}'], x ≠ '{' := by
              intro x hx
              rcases List.mem_append.mp hx with hx' | hx'
              · exact (digitStr_not_brace (List.mem_takeWhile_imp hx')).1
              · rcases List.mem_cons.mp hx' with rfl | hx''
                · decide
                · rcases List.mem_cons.mp hx'' with rfl | hx'''
                  · decide
                  · cases hx'''
            have hinf3 : ('{' :: '{' :: (ds ++ '}' :: '}' :: [])) <:+:
                (rest.takeWhile Char.isDigit ++ ['}', '}']) ++
                  (rest.dropWhile Char.isDigit).drop 2 := by
              have : rest = (rest.takeWhile Char.isDigit ++ ['}', '}']) ++
                  (rest.dropWhile Char.isDigit).drop 2 := by
                conv_lhs => rw [hsplit]
                simp
              rwa [← this]
            have hinf4 := infix_through_nonbrace _ rfl hxs hinf3
            apply ih
            · have h1 := congrArg List.length hsplit
              simp only [List.length_append, List.length_cons] at h1
              simp only [List.length_cons] at hlen
              omega
            · exact ⟨ds, hds, hdig, hval, hinf4⟩
      · -- the scanner does not match here: the occurrence starts later
        have hnext : placeholderAt (c2 :: rest) n := by
          rcases List.infix_cons_iff.mp hinf with hpre | hinf1
        -- a prefix occurrence would force the guard to hold
          · exfalso
            obtain ⟨rfl, hpre1⟩ := List.cons_prefix_cons.mp hpre
            obtain ⟨rfl, hpre2⟩ := List.cons_prefix_cons.mp hpre1
            obtain ⟨tail', htl⟩ := hpre2
            have htl' : rest = ds ++ '}' :: ('}' :: tail') := by
              rw [← htl]
              simp
            obtain ⟨hTW, hDW⟩ := takeWhile_digit_append hdig ('}' :: tail')
            rw [htl'] at hg
            push_neg at hg
            have := hg rfl rfl (by rw [hTW]; exact hds)
            rw [hDW] at this
            simp at this
          · exact ⟨ds, hds, hdig, hval, hinf1⟩
        apply ih
        · simp only [List.length_cons] at hlen ⊢
          omega
        · exact hnext

theorem gpc_eq (l : List Char) :
    get_parameter_count (some l) = maxList (scanPlaceholders l) := by
  by_cases h0 : l = []
  · subst h0; rfl
  · simp only [get_parameter_count, if_neg h0]
    cases h : scanPlaceholders l with
    | nil => simp [maxList]
    | cons m ms => rfl

/-- C5: `get_parameter_count` returns the maximum numeral `n` appearing in a
`{{n}}` placeholder of the template body, and `0` when the body is `None`,
empty, or contains no placeholder. -/
theorem C5_get_parameter_count_spec :
    get_parameter_count none = 0 ∧
    ∀ l : List Char,
      (∀ n, placeholderAt l n → n ≤ get_parameter_count (some l)) ∧
      (get_parameter_count (some l) = 0 ∨
        placeholderAt l (get_parameter_count (some l))) := by
  refine ⟨rfl, fun l => ⟨?_, ?_⟩⟩
  · intro n hp
    rw [gpc_eq]
    exact maxList_le (scanPHF_complete l.length l n le_rfl hp)
  · rw [gpc_eq]
    rcases maxList_mem (l := scanPlaceholders l) with h0 | hm
    · exact Or.inl h0
    · exact Or.inr (scanPHF_sound l.length l _ hm)

theorem hexVal_hexDigit {n : Nat} (h : n < 16) : hexVal (hexDigit n) = some n := by
  interval_cases n <;> decide

theorem parseJStr_encodeBody :
    ∀ (s tail : List Char),
      parseJStr ((s.map escChar).flatten ++ '"' :: tail) = some (s, tail) := by
  intro s
  induction s with
  | nil =>
    intro tail
    rw [List.map_nil, List.flatten_nil, List.nil_append, parseJStr.eq_def]
    simp
  | cons c s' ih =>
    intro tail
    rw [List.map_cons, List.flatten_cons, List.append_assoc]
    rw [escChar]
    split_ifs with h1 h2 h3 h4 h5 h6 h7 h8
    · subst h1; rw [List.cons_append, List.cons_append, List.nil_append,
        parseJStr.eq_def]
      simp [jsonEscChar, ih]
    · subst h2; rw [List.cons_append, List.cons_append, List.nil_append,
        parseJStr.eq_def]
      simp [jsonEscChar, ih]
    · subst h3; rw [List.cons_append, List.cons_append, List.nil_append,
        parseJStr.eq_def]
      simp [jsonEscChar, ih]
    · subst h4; rw [List.cons_append, List.cons_append, List.nil_append,
        parseJStr.eq_def]
      simp [jsonEscChar, ih]
    · subst h5; rw [List.cons_append, List.cons_append, List.nil_append,
        parseJStr.eq_def]
      simp [jsonEscChar, ih]
    · subst h6; rw [List.cons_append, List.cons_append, List.nil_append,
        parseJStr.eq_def]
      simp [jsonEscChar, ih]
    · subst h7; rw [List.cons_append, List.cons_append, List.nil_append,
        parseJStr.eq_def]
      simp [jsonEscChar, ih]
    · have e0 : hexVal '0' = some 0 := by decide
      have e1 : hexVal (hexDigit (c.toNat / 16)) = some (c.toNat / 16) :=
        hexVal_hexDigit (by omega)
      have e2 : hexVal (hexDigit (c.toNat % 16)) = some (c.toNat % 16) :=
        hexVal_hexDigit (by omega)
      have hdm := Nat.div_add_mod c.toNat 16
      have e3 : ((0 * 16 + 0) * 16 + c.toNat / 16) * 16 + c.toNat % 16 = c.toNat := by
        omega
      have e3' : c.toNat / 16 * 16 + c.toNat % 16 = c.toNat := by omega
      have e4 : ((0 * 16 + 0) * 16 + c.toNat / 16) * 16 + c.toNat % 16 < 55296 := by
        omega
      have e4' : c.toNat / 16 * 16 + c.toNat % 16 < 55296 := by omega
      have e5 : Char.ofNat (((0 * 16 + 0) * 16 + c.toNat / 16) * 16 + c.toNat % 16) = c := by
        rw [e3, Char.ofNat_toNat]
      have e5' : Char.ofNat (c.toNat / 16 * 16 + c.toNat % 16) = c := by
        rw [e3', Char.ofNat_toNat]
      rw [parseJStr.eq_def]
      simp [e0, e1, e2, e4, e4', e5, e5', ih]
    · rw [List.cons_append, List.nil_append, parseJStr.eq_def]
      simp [h1, h2, ih]

theorem jsonEncodeElems_cons_shape (s : List Char) (rest : List (List Char)) :
    ∃ T, jsonEncodeElems (s :: rest) = '"' :: T := by
  cases rest with
  | nil => exact ⟨(s.map escChar).flatten ++ ['"'], rfl⟩
  | cons b bt =>
    exact ⟨((s.map escChar).flatten ++ ['"']) ++ ',' :: jsonEncodeElems (b :: bt), rfl⟩

theorem parseElemsF_encode :
    ∀ (ss : List (List Char)) (fuel : Nat), ss ≠ [] →
      (jsonEncodeElems ss ++ [']']).length ≤ fuel →
      parseElemsF fuel (jsonEncodeElems ss ++ [']']) = some (ss, []) := by
  intro ss
  induction ss with
  | nil => intro fuel h; exact absurd rfl h
  | cons s rest ih =>
    intro fuel _ hlen
    cases fuel with
    | zero =>
      exfalso
      rw [List.length_append] at hlen
      simp at hlen
    | succ fuel =>
      cases rest with
      | nil =>
        have hshape : jsonEncodeElems [s] ++ [']'] =
            '"' :: ((s.map escChar).flatten ++ '"' :: [']']) := by
          simp [jsonEncodeElems, jsonEncodeStr]
        rw [hshape, parseElemsF.eq_def]
        simp [parseJStr_encodeBody, isJsonWs]
      | cons s2 rest2 =>
        have hshape : jsonEncodeElems (s :: s2 :: rest2) ++ [']'] =
            '"' :: ((s.map escChar).flatten ++
              '"' :: (',' :: (jsonEncodeElems (s2 :: rest2) ++ [']']))) := by
          simp [jsonEncodeElems, jsonEncodeStr]
        obtain ⟨T, hT⟩ := jsonEncodeElems_cons_shape s2 rest2
        have hdw : (jsonEncodeElems (s2 :: rest2) ++ [']']).dropWhile isJsonWs =
            jsonEncodeElems (s2 :: rest2) ++ [']'] := by
          rw [hT, List.cons_append, List.dropWhile_cons_of_neg (by decide)]
        have hlen2 : (jsonEncodeElems (s2 :: rest2) ++ [']']).length ≤ fuel := by
          have hc := congrArg List.length hshape
          simp only [List.length_append, List.length_cons] at hc hlen ⊢
          omega
        have hrec := ih fuel (List.cons_ne_nil _ _) hlen2
        rw [hshape, parseElemsF.eq_def]
        simp [parseJStr_encodeBody, isJsonWs, hdw, hrec]

theorem pyJsonLoads_encodeArray (ss : List (List Char)) :
    pyJsonLoadsStrArr (jsonEncodeArray ss) = some ss := by
  cases ss with
  | nil => decide
  | cons s rest =>
    obtain ⟨T, hT⟩ := jsonEncodeElems_cons_shape s rest
    have harr : jsonEncodeArray (s :: rest) = '[' :: ('"' :: (T ++ [']'])) := by
      rw [jsonEncodeArray, hT]
      simp
    have hpe : parseElemsF (T.length + 1 + 1) ('"' :: (T ++ [']'])) =
        some (s :: rest, []) := by
      have h1 := parseElemsF_encode (s :: rest)
        (jsonEncodeElems (s :: rest) ++ [']']).length (List.cons_ne_nil _ _) le_rfl
      rw [hT] at h1
      simpa [List.length_append, Nat.add_comm, Nat.add_assoc, Nat.add_left_comm]
        using h1
    rw [harr]
    simp [pyJsonLoadsStrArr, isJsonWs, hpe]

theorem pyStrip_encodeArray (ss : List (List Char)) :
    pyStrip (jsonEncodeArray ss) = jsonEncodeArray ss := by
  unfold pyStrip
  apply stripBoth_eq_self
  · intro c t hct
    rw [jsonEncodeArray] at hct
    cases hct
    decide
  · intro c hc
    rw [jsonEncodeArray, show ('[' :: (jsonEncodeElems ss ++ [']'])) =
        ('[' :: jsonEncodeElems ss) ++ [']'] from by simp,
      List.getLast?_concat] at hc
    cases hc
    decide

theorem jsonEncodeArray_ne_nil (ss : List (List Char)) : jsonEncodeArray ss ≠ [] := by
  rw [jsonEncodeArray]
  exact List.cons_ne_nil _ _

theorem jsonEncodeArray_getLast (ss : List (List Char)) :
    (jsonEncodeArray ss).getLast? = some ']' := by
  rw [jsonEncodeArray, show ('[' :: (jsonEncodeElems ss ++ [']'])) =
      ('[' :: jsonEncodeElems ss) ++ [']'] from by simp]
  exact List.getLast?_concat _

/-- C4 counterexample: the list of strings `["a "]`, encoded as the JSON array
`["a "]`, does not round-trip through `_parse_sample_values`: the result is
`["a"]` (each element is stripped and empty elements are dropped), not
`["a "]`. -/
theorem C4_counterexample :
    parse_sample_values (jsonEncodeArray [['a', ' ']]) none = [['a']] ∧
    parse_sample_values (jsonEncodeArray [['a', ' ']]) none ≠ [['a', ' ']] := by
  decide

/-- C4 amended: a JSON array of strings parses back to that list with each
element stripped of surrounding whitespace and empty elements dropped; a
non-bracketed input containing `|` yields the pipe-split pieces (stripped,
empties dropped) when no expected count is given or the count matches, and
falls back to the comma split otherwise; a non-bracketed input without `|`
yields the comma-split pieces (stripped, empties dropped). -/
theorem C4_parse_sample_values_amended :
    (∀ (ss : List (List Char)) (expected : Option Nat),
      parse_sample_values (jsonEncodeArray ss) expected =
        (ss.map pyStrip).filter (· ≠ [])) ∧
    (∀ (s : List Char) (expected : Option Nat),
      pyStrip s ≠ [] →
      ¬ ((pyStrip s).head? = some '[' ∧ (pyStrip s).getLast? = some ']') →
      '|' ∈ pyStrip s →
      parse_sample_values s expected =
        (if expected = none ∨ expected =
            some (((pySplitChar '|' (pyStrip s)).map pyStrip).filter (· ≠ [])).length
         then ((pySplitChar '|' (pyStrip s)).map pyStrip).filter (· ≠ [])
         else ((pySplitChar ',' (pyStrip s)).map pyStrip).filter (· ≠ []))) ∧
    (∀ (s : List Char) (expected : Option Nat),
      pyStrip s ≠ [] →
      ¬ ((pyStrip s).head? = some '[' ∧ (pyStrip s).getLast? = some ']') →
      '|' ∉ pyStrip s →
      parse_sample_values s expected =
        ((pySplitChar ',' (pyStrip s)).map pyStrip).filter (· ≠ [])) := by
  refine ⟨?_, ?_, ?_⟩
  · intro ss expected
    have hne := jsonEncodeArray_ne_nil ss
    have hh : (jsonEncodeArray ss).head? = some '[' := rfl
    simp only [parse_sample_values, pyStrip_encodeArray, hh,
      jsonEncodeArray_getLast, pyJsonLoads_encodeArray, hne]
    simp
  · intro s expected h1 h2 h3
    have hs : ¬ (s = [] ∨ pyStrip s = []) := by
      rintro (rfl | h)
      · exact h1 rfl
      · exact h1 h
    simp only [parse_sample_values, if_neg hs, if_neg h2, if_pos h3]
  · intro s expected h1 h2 h3
    have hs : ¬ (s = [] ∨ pyStrip s = []) := by
      rintro (rfl | h)
      · exact h1 rfl
      · exact h1 h
    simp only [parse_sample_values, if_neg hs, if_neg h2, if_neg h3]

/-- C4 amended, witnessed on the pipe input `"a|b"` with no expected count. -/
theorem C4_parse_sample_values_amended_witness :
    parse_sample_values ('a' :: '|' :: 'b' :: []) none =
      (if (none : Option Nat) = none ∨ (none : Option Nat) =
          some (((pySplitChar '|' (pyStrip ('a' :: '|' :: 'b' :: []))).map
            pyStrip).filter (· ≠ [])).length
       then ((pySplitChar '|' (pyStrip ('a' :: '|' :: 'b' :: []))).map
          pyStrip).filter (· ≠ [])
       else ((pySplitChar ',' (pyStrip ('a' :: '|' :: 'b' :: []))).map
          pyStrip).filter (· ≠ [])) :=
  C4_parse_sample_values_amended.2.1 ('a' :: '|' :: 'b' :: []) none (by decide)
    (by decide) (by decide)

/-- C3: the concrete malformed payload `{"entry": []}` makes the `post`
handler raise an uncaught `IndexError`: `data["entry"][0]` fails with
`IndexError`, which the `except KeyError` clause does not catch.  Only the
unconditional raw-payload log is created; the handler does not return
normally, contradicting the claim that every malformed payload is logged and
handled without raising. -/
theorem C3_post_empty_entry_raises (env : WebhookEnv) :
    post (.vdict [("entry", .vlist [])]) env =
      ([.rawLog], .error .indexError) := rfl

/-- C8: the GET verification handler returns the `hub.challenge` value with
status 200 exactly when the supplied `hub.verify_token` selects a WhatsApp
Account (the lookup is by account name) whose stored webhook verify secret is
truthy and equal to the token; in every other case it throws instead of
echoing the challenge. -/
theorem C8_webhook_get_iff (env : GetEnv) (form : GetForm) :
    (webhook_get env form = .ok ⟨form.hubChallenge, 200⟩ ↔
      ∃ t, form.hubVerifyToken = some t ∧ t ≠ "" ∧ env.accountSecret t = some t) ∧
    (∀ r, webhook_get env form = .ok r → r = ⟨form.hubChallenge, 200⟩) := by
  cases htk : form.hubVerifyToken with
  | none =>
    refine ⟨⟨fun h => ?_, fun h => ?_⟩, fun r hr => ?_⟩
    · exfalso
      unfold webhook_get at h
      rw [htk] at h
      simp at h
    · exfalso
      obtain ⟨t, ht, -, -⟩ := h
      cases ht
    · exfalso
      unfold webhook_get at hr
      rw [htk] at hr
      simp at hr
  | some t =>
    cases hdb : env.accountSecret t with
    | none =>
      refine ⟨⟨fun h => ?_, fun h => ?_⟩, fun r hr => ?_⟩
      · exfalso
        unfold webhook_get at h
        rw [htk] at h
        simp only [Option.some_bind, hdb] at h
        cases h
      · exfalso
        obtain ⟨t', ht, -, hsec⟩ := h
        cases ht
        rw [hdb] at hsec
        cases hsec
      · exfalso
        unfold webhook_get at hr
        rw [htk] at hr
        simp only [Option.some_bind, hdb] at hr
        cases hr
    | some sct =>
      by_cases hse : sct = ""
      · subst hse
        refine ⟨⟨fun h => ?_, fun h => ?_⟩, fun r hr => ?_⟩
        · exfalso
          unfold webhook_get at h
          rw [htk] at h
          simp only [Option.some_bind, hdb, if_pos rfl] at h
          cases h
        · exfalso
          obtain ⟨t', ht, hne, hsec⟩ := h
          cases ht
          rw [hdb] at hsec
          cases hsec
          exact hne rfl
        · exfalso
          unfold webhook_get at hr
          rw [htk] at hr
          simp only [Option.some_bind, hdb, if_pos rfl] at hr
          cases hr
      · by_cases hteq : t = sct
        · subst hteq
          refine ⟨⟨fun _ => ⟨t, rfl, hse, hdb⟩, fun _ => ?_⟩, fun r hr => ?_⟩
          · unfold webhook_get
            rw [htk]
            simp only [Option.some_bind, hdb, if_neg hse]
            rw [if_neg (by simp)]
          · unfold webhook_get at hr
            rw [htk] at hr
            simp only [Option.some_bind, hdb, if_neg hse] at hr
            rw [if_neg (by simp)] at hr
            cases hr
            rfl
        · refine ⟨⟨fun h => ?_, fun h => ?_⟩, fun r hr => ?_⟩
          · exfalso
            unfold webhook_get at h
            rw [htk] at h
            simp only [Option.some_bind, hdb, if_neg hse] at h
            rw [if_pos (by simp [htk, hteq])] at h
            cases h
          · exfalso
            obtain ⟨t', ht, -, hsec⟩ := h
            cases ht
            rw [hdb] at hsec
            cases hsec
            exact hteq rfl
          · exfalso
            unfold webhook_get at hr
            rw [htk] at hr
            simp only [Option.some_bind, hdb, if_neg hse] at hr
            rw [if_pos (by simp [htk, hteq])] at hr
            cases hr

theorem notifyTry_no_log (data : FormVal) (env : NotifyEnv) :
    ((notifyTry data env).1.filter isNotifLog) = [] := by
  unfold notifyTry
  rcases env.postRes with resp | ⟨e, integ⟩
  · cases h : notifyTryAccess data resp with
    | error ex => simp [h, isNotifLog]
    | ok u =>
      cases u
      cases hs : env.saveFails with
      | some e => simp [h, hs, isNotifLog]
      | none =>
        cases hv : env.setValueFails with
        | some e => simp [h, hs, hv, isNotifLog]
        | none => simp [h, hs, hv, isNotifLog]
  · rfl

/-- C7: with a resolved WhatsApp account, `notify` creates exactly one
outcome log record ("WhatsApp Notification Log") whether the provider POST
succeeds or fails, and on failure the recorded error is taken from the
provider's JSON error body when that body is available (its `Error` key,
falling back to `message`). -/
theorem C7_notify_outcome_log (data : FormVal) (env : NotifyEnv) (a : String)
    (hacc : env.resolvedAccount = some a) :
    ((notify data env).1.filter isNotifLog).length = 1 ∧
    (∀ (e : String) (jd ed : List (String × FormVal)),
      env.postRes = .exc e (some (.ok (.vdict jd))) →
      dictFind jd "error" = some (.vdict ed) →
      ed ≠ [] →
      (notify data env).1.filter isNotifLog =
        [.notifLog (.vdict [("error",
          (dictFind ed "Error").getD ((dictFind ed "message").getD .vnull))])]) := by
  have hno := notifyTry_no_log data env
  constructor
  · unfold notify
    rw [hacc]
    rcases htry : notifyTry data env with ⟨recs, out⟩
    have hno' : List.filter isNotifLog recs = [] := by
      rw [htry] at hno
      exact hno
    cases out with
    | success resp =>
      simp [List.filter_append, hno', isNotifLog]
    | failed e integ =>
      cases hem : exceptErrorMessage e integ with
      | ok em =>
        simp only [hem]
        simp [List.filter_append, hno', isNotifLog]
      | error ex =>
        simp only [hem]
        simp [List.filter_append, hno', isNotifLog]
  · intro e jd ed hpost hfind hed
    unfold notify
    rw [hacc]
    have htry : notifyTry data env = ([], .failed e (some (.ok (.vdict jd)))) := by
      unfold notifyTry
      rw [hpost]
    rw [htry]
    have htr : truthyFV (.vdict ed) = true := by
      cases ed with
      | nil => exact absurd rfl hed
      | cons x xs => rfl
    have hem : exceptErrorMessage e (some (.ok (.vdict jd))) =
        .ok ((dictFind ed "Error").getD ((dictFind ed "message").getD .vnull)) := by
      unfold exceptErrorMessage
      simp only [dictGetD, hfind, Option.getD_some, htr, if_true]
    simp only [hem]
    simp [isNotifLog]

/-- C7, witnessed on a failing POST whose integration request carries the
JSON error body `{"error": {"message": "m"}}`. -/
theorem C7_notify_outcome_log_witness :
    ((notify .vnull (⟨some "acct",
        .exc "boom" (some (.ok (.vdict [("error", .vdict [("message", .vstr "m")])]))),
        none, none⟩ : NotifyEnv)).1.filter isNotifLog).length = 1 ∧
    (notify .vnull (⟨some "acct",
        .exc "boom" (some (.ok (.vdict [("error", .vdict [("message", .vstr "m")])]))),
        none, none⟩ : NotifyEnv)).1.filter isNotifLog =
      [.notifLog (.vdict [("error",
        (dictFind [("message", FormVal.vstr "m")] "Error").getD
          ((dictFind [("message", FormVal.vstr "m")] "message").getD .vnull))])] :=
  ⟨(C7_notify_outcome_log .vnull _ "acct" rfl).1,
    (C7_notify_outcome_log .vnull _ "acct" rfl).2 "boom"
      [("error", .vdict [("message", .vstr "m")])] [("message", .vstr "m")]
      rfl rfl (List.cons_ne_nil _ _)⟩

theorem runSteps_cons_err {f : TStep} {fs : List TStep} {d : TmplDoc}
    {effs : List TEffect} {e : VErr} (h : f d = (effs, .error e)) :
    runSteps (f :: fs) d = (effs, .error e) := by
  rw [runSteps, h]

theorem runSteps_cons_ok {f : TStep} {fs : List TStep} {d : TmplDoc}
    {effs : List TEffect} {d2 : TmplDoc} (h : f d = (effs, .ok d2)) :
    runSteps (f :: fs) d =
      (effs ++ (runSteps fs d2).1, (runSteps fs d2).2) := by
  rw [runSteps, h]

theorem runSteps_inv (P : TmplDoc → Prop) :
    ∀ (fs : List TStep),
      (∀ f ∈ fs, ∀ x, P x → ∀ effs r, f x = (effs, r) →
        TEffect.remoteUpdate ∉ effs ∧ (∀ d', r = .ok d' → P d')) →
      ∀ d, P d → TEffect.remoteUpdate ∉ (runSteps fs d).1 ∧
        (∀ d', (runSteps fs d).2 = .ok d' → P d') := by
  intro fs
  induction fs with
  | nil =>
    intro _ d hd
    refine ⟨by simp [runSteps], ?_⟩
    intro d' h
    rw [runSteps] at h
    cases h
    exact hd
  | cons f fs ih =>
    intro hP d hd
    have hf := hP f (List.mem_cons_self _ _) d hd
    rcases hfd : f d with ⟨effs, r⟩
    have hstep := hf effs r hfd
    cases r with
    | error e =>
      rw [runSteps_cons_err hfd]
      exact ⟨hstep.1, fun d' h => by cases h⟩
    | ok d2 =>
      have hd2 : P d2 := hstep.2 d2 rfl
      have hrec := ih (fun g hg => hP g (List.mem_cons_of_mem _ hg)) d2 hd2
      rw [runSteps_cons_ok hfd]
      refine ⟨?_, fun d' h => hrec.2 d' h⟩
      intro hmem
      rcases List.mem_append.mp hmem with hm | hm
      · exact hstep.1 hm
      · exact hrec.1 hm

theorem runSteps_append :
    ∀ (fs gs : List TStep) (d : TmplDoc),
      runSteps (fs ++ gs) d =
        (match runSteps fs d with
         | (effs, .error e) => (effs, .error e)
         | (effs, .ok d2) =>
           match runSteps gs d2 with
           | (effs2, r) => (effs ++ effs2, r)) := by
  intro fs
  induction fs with
  | nil =>
    intro gs d
    rw [List.nil_append]
    rcases hg : runSteps gs d with ⟨e2, r2⟩
    rw [show runSteps ([] : List TStep) d = ([], .ok d) from rfl]
    simp [hg]
  | cons f fs ih =>
    intro gs d
    rcases hfd : f d with ⟨effs, r⟩
    cases r with
    | error e =>
      rw [List.cons_append, runSteps_cons_err hfd, runSteps_cons_err hfd]
    | ok d2 =>
      rw [List.cons_append, runSteps_cons_ok hfd, ih gs d2, runSteps_cons_ok hfd]
      rcases hf2 : runSteps fs d2 with ⟨e2, r2⟩
      cases r2 with
      | error e3 => simp
      | ok d3 =>
        rcases hg3 : runSteps gs d3 with ⟨e4, r4⟩
        simp

theorem step_set_account_benign (env : TmplEnv) (x : TmplDoc) :
    TEffect.remoteUpdate ∉ (step_set_account env x).1 ∧
    (∀ d', (step_set_account env x).2 = .ok d' → d'.id = x.id ∧ d'.is_new = x.is_new ∧
      d'.status = x.status ∧ d'.template = x.template ∧
      d'.sample_values = x.sample_values) := by
  unfold step_set_account
  cases hda : env.defaultAccount <;>
    (try dsimp only
     split_ifs <;>
       (constructor
        · simp
        · rintro d' hok
          first
          | (cases hok; simp)
          | cases hok))

theorem step_language_benign (env : TmplEnv) (x : TmplDoc) :
    TEffect.remoteUpdate ∉ (step_language env x).1 ∧
    (∀ d', (step_language env x).2 = .ok d' → d'.id = x.id ∧ d'.is_new = x.is_new ∧
      d'.status = x.status ∧ d'.template = x.template ∧
      d'.sample_values = x.sample_values) := by
  unfold step_language
  cases hll : env.langLookup x.language <;>
    (try dsimp only
     split_ifs <;>
       (constructor
        · simp
        · rintro d' hok
          first
          | (cases hok; simp)
          | cases hok))

theorem step_name_benign (x : TmplDoc) :
    TEffect.remoteUpdate ∉ (step_name x).1 ∧
    (∀ d', (step_name x).2 = .ok d' → d'.id = x.id ∧ d'.is_new = x.is_new ∧
      d'.status = x.status ∧ d'.template = x.template ∧
      d'.sample_values = x.sample_values) := by
  unfold step_name
  try dsimp only
  split_ifs <;>
    (constructor
     · simp
     · rintro d' hok
       first
       | (cases hok; simp)
       | cases hok)

theorem step_media_benign (env : TmplEnv) (x : TmplDoc) :
    TEffect.remoteUpdate ∉ (step_media env x).1 ∧
    (∀ d', (step_media env x).2 = .ok d' → d'.id = x.id ∧ d'.is_new = x.is_new ∧
      d'.status = x.status ∧ d'.template = x.template ∧
      d'.sample_values = x.sample_values) := by
  unfold step_media
  try dsimp only
  split_ifs <;>
    (constructor
     · simp
     · rintro d' hok
       first
       | (cases hok; simp)
       | cases hok)

theorem step_body_limit_benign (x : TmplDoc) :
    TEffect.remoteUpdate ∉ (step_body_limit x).1 ∧
    (∀ d', (step_body_limit x).2 = .ok d' → d'.id = x.id ∧ d'.is_new = x.is_new ∧
      d'.status = x.status ∧ d'.template = x.template ∧
      d'.sample_values = x.sample_values) := by
  unfold step_body_limit
  try dsimp only
  split_ifs <;>
    (constructor
     · simp
     · rintro d' hok
       first
       | (cases hok; simp)
       | cases hok)

theorem step_header_limit_benign (x : TmplDoc) :
    TEffect.remoteUpdate ∉ (step_header_limit x).1 ∧
    (∀ d', (step_header_limit x).2 = .ok d' → d'.id = x.id ∧ d'.is_new = x.is_new ∧
      d'.status = x.status ∧ d'.template = x.template ∧
      d'.sample_values = x.sample_values) := by
  unfold step_header_limit
  try dsimp only
  split_ifs <;>
    (constructor
     · simp
     · rintro d' hok
       first
       | (cases hok; simp)
       | cases hok)

theorem step_footer_limit_benign (x : TmplDoc) :
    TEffect.remoteUpdate ∉ (step_footer_limit x).1 ∧
    (∀ d', (step_footer_limit x).2 = .ok d' → d'.id = x.id ∧ d'.is_new = x.is_new ∧
      d'.status = x.status ∧ d'.template = x.template ∧
      d'.sample_values = x.sample_values) := by
  unfold step_footer_limit
  try dsimp only
  split_ifs <;>
    (constructor
     · simp
     · rintro d' hok
       first
       | (cases hok; simp)
       | cases hok)

theorem step_samples_benign (x : TmplDoc) :
    TEffect.remoteUpdate ∉ (step_samples x).1 ∧
    (∀ d', (step_samples x).2 = .ok d' → d'.id = x.id ∧ d'.is_new = x.is_new ∧
      d'.status = x.status ∧ d'.template = x.template ∧
      d'.sample_values = x.sample_values) := by
  unfold step_samples
  try dsimp only
  split_ifs <;>
    (constructor
     · simp
     · rintro d' hok
       first
       | (cases hok; simp)
       | cases hok)

theorem step_update_skip (env : TmplEnv) (x : TmplDoc)
    (ha : x.is_new = false) (hb : x.id ≠ [])
    (hc : x.status = "PENDING".toList ∨ x.status = "APPROVED".toList ∨
      x.status = "REJECTED".toList) :
    step_update env x = ([], .ok x) := by
  unfold step_update
  rw [if_pos ⟨ha, hb⟩, if_pos ?_]
  constructor
  · rcases hc with h | h | h <;> (rw [h]; decide)
  · rcases hc with h | h | h <;> (rw [h]; decide)

theorem benign_step_preserves {g : TStep} {x d : TmplDoc}
    (hben : TEffect.remoteUpdate ∉ (g x).1 ∧
      (∀ d', (g x).2 = .ok d' → d'.id = x.id ∧ d'.is_new = x.is_new ∧
        d'.status = x.status ∧ d'.template = x.template ∧
        d'.sample_values = x.sample_values))
    (hx : x.id = d.id ∧ x.is_new = false ∧ x.status = d.status) :
    TEffect.remoteUpdate ∉ (g x).1 ∧
    (∀ d', (g x).2 = .ok d' → d'.id = d.id ∧ d'.is_new = false ∧
      d'.status = d.status) := by
  refine ⟨hben.1, fun d' h => ?_⟩
  have hb := hben.2 d' h
  exact ⟨hb.1.trans hx.1, hb.2.1.trans hx.2.1, hb.2.2.1.trans hx.2.2⟩

theorem benign_step_preserves_ts {g : TStep} {x d : TmplDoc}
    (hben : TEffect.remoteUpdate ∉ (g x).1 ∧
      (∀ d', (g x).2 = .ok d' → d'.id = x.id ∧ d'.is_new = x.is_new ∧
        d'.status = x.status ∧ d'.template = x.template ∧
        d'.sample_values = x.sample_values))
    (hx : x.template = d.template ∧ x.sample_values = d.sample_values) :
    TEffect.remoteUpdate ∉ (g x).1 ∧
    (∀ d', (g x).2 = .ok d' → d'.template = d.template ∧
      d'.sample_values = d.sample_values) := by
  refine ⟨hben.1, fun d' h => ?_⟩
  have hb := hben.2 d' h
  exact ⟨hb.2.2.2.1.trans hx.1, hb.2.2.2.2.trans hx.2⟩

theorem pre7_preserves (env : TmplEnv) (d : TmplDoc) :
    ∀ d2, (runSteps (pre7 env) d).2 = .ok d2 →
      d2.template = d.template ∧ d2.sample_values = d.sample_values := by
  have hmain := runSteps_inv
    (fun x => x.template = d.template ∧ x.sample_values = d.sample_values)
    (pre7 env) ?_ d ⟨rfl, rfl⟩
  · exact hmain.2
  · intro f hf x hx effs r hfx
    have he : effs = (f x).1 := by rw [hfx]
    have hr : r = (f x).2 := by rw [hfx]
    subst he
    subst hr
    simp only [pre7, List.mem_cons, List.not_mem_nil, or_false] at hf
    rcases hf with rfl | rfl | rfl | rfl | rfl | rfl | rfl
    · exact benign_step_preserves_ts (step_set_account_benign env x) hx
    · exact benign_step_preserves_ts (step_language_benign env x) hx
    · exact benign_step_preserves_ts (step_name_benign x) hx
    · exact benign_step_preserves_ts (step_media_benign env x) hx
    · exact benign_step_preserves_ts (step_body_limit_benign x) hx
    · exact benign_step_preserves_ts (step_header_limit_benign x) hx
    · exact benign_step_preserves_ts (step_footer_limit_benign x) hx

theorem parse_sample_values_nil (expected : Option Nat) :
    parse_sample_values [] expected = [] := by
  unfold parse_sample_values
  rw [if_pos (Or.inl rfl)]

/-- C6: for every saved (non-new) template document whose provider id is
assigned (non-empty) and whose status is PENDING, APPROVED, or REJECTED, the
`validate` path never issues a remote `update_template` call, and every
document it returns carries the same provider id: edits in that state are
local-only. -/
theorem C6_provider_id_immutable (d : TmplDoc) (env : TmplEnv)
    (h1 : d.is_new = false) (h2 : d.id ≠ [])
    (h3 : d.status = "PENDING".toList ∨ d.status = "APPROVED".toList ∨
      d.status = "REJECTED".toList) :
    TEffect.remoteUpdate ∉ (validate d env).1 ∧
    (∀ d', (validate d env).2 = .ok d' → d'.id = d.id) := by
  have hmain := runSteps_inv
    (fun x => x.id = d.id ∧ x.is_new = false ∧ x.status = d.status)
    (validateSteps env) ?_ d ⟨rfl, h1, rfl⟩
  · exact ⟨hmain.1, fun d' h => (hmain.2 d' h).1⟩
  · intro f hf x hx effs r hfx
    have he : effs = (f x).1 := by rw [hfx]
    have hr : r = (f x).2 := by rw [hfx]
    subst he
    subst hr
    simp only [validateSteps, List.mem_cons, List.not_mem_nil, or_false] at hf
    rcases hf with rfl | rfl | rfl | rfl | rfl | rfl | rfl | rfl | rfl
    · exact benign_step_preserves (step_set_account_benign env x) hx
    · exact benign_step_preserves (step_language_benign env x) hx
    · exact benign_step_preserves (step_name_benign x) hx
    · exact benign_step_preserves (step_media_benign env x) hx
    · exact benign_step_preserves (step_body_limit_benign x) hx
    · exact benign_step_preserves (step_header_limit_benign x) hx
    · exact benign_step_preserves (step_footer_limit_benign x) hx
    · exact benign_step_preserves (step_samples_benign x) hx
    · have hs := step_update_skip env x hx.2.1 (by rw [hx.1]; exact h2)
        (by rw [hx.2.2]; exact h3)
      rw [hs]
      exact ⟨by simp, fun d' h => by cases h; exact hx⟩

theorem C6_provider_id_immutable_witness :
    C6doc.is_new = false ∧ C6doc.id ≠ [] ∧ C6doc.status = "PENDING".toList ∧
    (TEffect.remoteUpdate ∉ (validate C6doc tmplEnvEx).1 ∧
     (∀ d', (validate C6doc tmplEnvEx).2 = .ok d' → d'.id = C6doc.id)) :=
  ⟨rfl, by decide, rfl,
   C6_provider_id_immutable C6doc tmplEnvEx rfl (by decide) (Or.inl rfl)⟩

/-- C9: for every template document whose body contains at least one
placeholder (positive parameter count), `validate` throws when the sample
values are missing or when the number of parsed sample values differs from
the parameter count; and when the parsed count matches, the sample-values
check itself passes without effects or error. -/
theorem C9_sample_values_check (d : TmplDoc) (env : TmplEnv)
    (hpc : 0 < get_parameter_count (some d.template)) :
    ((d.sample_values = [] ∨
        (parse_sample_values d.sample_values
            (some (get_parameter_count (some d.template)))).length ≠
          get_parameter_count (some d.template)) →
      ∃ e, (validate d env).2 = .error e) ∧
    ((parse_sample_values d.sample_values
          (some (get_parameter_count (some d.template)))).length =
        get_parameter_count (some d.template) →
      step_samples d = ([], .ok d)) := by
  have htne : d.template ≠ [] := by
    intro h0
    rw [h0] at hpc
    exact absurd hpc (by decide)
  have hsplit : validateSteps env = pre7 env ++ [step_samples, step_update env] := rfl
  constructor
  · intro hbad
    rcases hpre : runSteps (pre7 env) d with ⟨effs1, r1⟩
    cases r1 with
    | error e =>
      refine ⟨e, ?_⟩
      unfold validate
      rw [hsplit, runSteps_append, hpre]
    | ok d2 =>
      have hQ := pre7_preserves env d d2 (by rw [hpre])
      have hstep : ∃ e0, step_samples d2 = ([], .error e0) := by
        unfold step_samples
        dsimp only
        rw [hQ.1, hQ.2, if_pos htne, if_pos hpc]
        by_cases hsv2 : d.sample_values = []
        · exact ⟨.sampleValuesRequired, by rw [if_pos hsv2]⟩
        · rw [if_neg hsv2]
          rcases hbad with hb1 | hb2
          · exact absurd hb1 hsv2
          · exact ⟨.sampleValuesMismatch, by rw [if_pos hb2]⟩
      obtain ⟨e0, he0⟩ := hstep
      refine ⟨e0, ?_⟩
      unfold validate
      rw [hsplit, runSteps_append, hpre]
      dsimp only
      rw [runSteps_cons_err he0]
  · intro hlen
    have hsv : d.sample_values ≠ [] := by
      intro h0
      rw [h0, parse_sample_values_nil] at hlen
      simp only [List.length_nil] at hlen
      omega
    unfold step_samples
    dsimp only
    rw [if_pos htne, if_pos hpc, if_neg hsv,
      if_neg (by simp only [ne_eq, not_not]; exact hlen)]

theorem C9_sample_values_check_witness :
    0 < get_parameter_count (some C9doc.template) ∧
    (((C9doc.sample_values = [] ∨
        (parse_sample_values C9doc.sample_values
            (some (get_parameter_count (some C9doc.template)))).length ≠
          get_parameter_count (some C9doc.template)) →
      ∃ e, (validate C9doc tmplEnvEx).2 = .error e) ∧
    ((parse_sample_values C9doc.sample_values
          (some (get_parameter_count (some C9doc.template)))).length =
        get_parameter_count (some C9doc.template) →
      step_samples C9doc = ([], .ok C9doc))) :=
  ⟨by decide, C9_sample_values_check C9doc tmplEnvEx (by decide)⟩
